import Mathlib

/-!
# Verification of the flatmap SVG exporter (`cmlibs/exporter/flatmapsvg.py`)

A shallow embedding of the pure core of the exporter, together with proofs
about it.  Real numbers of the Python source are modelled as rationals,
Python `int()` truncation as `pyInt`, Python lists as Lean lists, and Python
dictionaries as association lists whose lookup returns the most recent
binding.  Externally evaluated data (the Zinc field API) is modelled by
records carrying the values the external calls would return.

The file is organised as definitions first, then the theorems about them.
-/

namespace FlatmapSvg

/-! ## Definitions: numeric helpers -/

/-- Python `int(q)`: truncation of a rational towards zero, computed on the
numerator and denominator so that it evaluates by kernel reduction. -/
def pyInt (q : ℚ) : ℤ := q.num.tdiv q.den

/-!
## Definitions: vector helpers (`cmlibs.maths.vectorops`)

External helpers used by the Bézier conversion; they act componentwise on
Python lists of floats: `add`/`sub` zip two vectors, `div` divides every
component by a scalar.
-/

def add (a b : List ℚ) : List ℚ := List.zipWith (· + ·) a b

def sub (a b : List ℚ) : List ℚ := List.zipWith (· - ·) a b

def div (a : List ℚ) (c : ℚ) : List ℚ := a.map (· / c)

/-!
## Definitions: the Bézier converter (`_calculate_bezier_curve`)

One element sample is a pair `(position, tangent)`, each a vector of
rationals.  The converter slices each vector to its first two components and
produces the control quadruple of a cubic Bézier segment.
-/

/-- One Bézier segment: the four control points `b0 b1 b2 b3`, each a
2-component vector (stored as a list, as in the source). -/
structure Seg where
  b0 : List ℚ
  b1 : List ℚ
  b2 : List ℚ
  b3 : List ℚ
deriving DecidableEq, Repr, Inhabited

/-- `_calculate_bezier_curve(pt_1, pt_2)`: Hermite-to-Bézier conversion of a
pair of (position, tangent) samples, on the first two components. -/
def calculate_bezier_curve (pt_1 pt_2 : List ℚ × List ℚ) : Seg :=
  let h0 := pt_1.1.take 2
  let v0 := pt_1.2.take 2
  let h1 := pt_2.1.take 2
  let v1 := pt_2.2.take 2
  { b0 := h0
    b1 := add h0 (div v0 3)
    b2 := sub h1 (div v1 3)
    b3 := h1 }

/-- The specification-side formula: on 2D points,
`b0 = P0`, `b1 = P0 + T0/3`, `b2 = P1 - T1/3`, `b3 = P1`. -/
def bezier_spec (P0 T0 P1 T1 : ℚ × ℚ) : (ℚ × ℚ) × (ℚ × ℚ) × (ℚ × ℚ) × (ℚ × ℚ) :=
  (P0, (P0.1 + T0.1 / 3, P0.2 + T0.2 / 3), (P1.1 - T1.1 / 3, P1.2 - T1.2 / 3), P1)

/-- First two components of a list, as a pair. -/
def firstTwo (l : List ℚ) : ℚ × ℚ := (l.getD 0 0, l.getD 1 0)

/-- A 2D point as a 2-component list. -/
def pairToList (p : ℚ × ℚ) : List ℚ := [p.1, p.2]

/-!
## Definitions: the viewBox computation
(`export_flatmapsvg_from_scene`, lines 97-111)

From the true bounding box of the rendered paths, the exporter computes the
final `viewBox` as `(int(min_x+0.5)-10, int(min_y+0.5)-10,
int(max_x-min_x+0.5)+20, int(max_y-min_y+0.5)+20)`.
-/

/-- A bounding box: `bbox = [min_x, max_x, min_y, max_y]` in the source. -/
structure Bbox where
  min_x : ℚ
  max_x : ℚ
  min_y : ℚ
  max_y : ℚ
deriving DecidableEq, Repr

/-- The `view_box` tuple computed by `export_flatmapsvg_from_scene` with
`view_margin = 10`. -/
def view_box (b : Bbox) : ℤ × ℤ × ℤ × ℤ :=
  (pyInt (b.min_x + 1/2) - 10,
   pyInt (b.min_y + 1/2) - 10,
   pyInt (b.max_x - b.min_x + 1/2) + 2 * 10,
   pyInt (b.max_y - b.min_y + 1/2) + 2 * 10)

/-!
## Definitions: decimal formatting and group labels

Python's decimal formatting of a nonnegative integer (`f"{n}"`) is modelled
by the most-significant-first list of its decimal digits, rendered to
characters.  `str.rjust` and `str.replace` are modelled on the character
lists of the strings.
-/

/-- Most-significant-first decimal digits of `n`; fuel-based recursion so
that it evaluates by kernel reduction (any fuel of at least `n + 1` gives
the digits of `n`). -/
def msDigitsAux : ℕ → ℕ → List ℕ
  | 0, _ => []
  | fuel+1, n => if n < 10 then [n] else msDigitsAux fuel (n / 10) ++ [n % 10]

/-- Most-significant-first decimal digits of `n`. -/
def msDigits (n : ℕ) : List ℕ := msDigitsAux (n + 1) n

/-- Numeric value of a most-significant-first digit list. -/
def digitsVal (l : List ℕ) : ℕ := l.foldl (fun a d => 10 * a + d) 0

/-- The character of a decimal digit. -/
def digitChar (d : ℕ) : Char := Char.ofNat (48 + d)

/-- Python `f"{n}"` for a natural number: its decimal representation. -/
def natStr (n : ℕ) : String := ⟨(msDigits n).map digitChar⟩

/-- Python `str.rjust(w, c)`: left-pad with `c` to width `w`. -/
def rjust (s : String) (w : ℕ) (c : Char) : String :=
  ⟨List.replicate (w - s.length) c ++ s.data⟩

/-- `size_of_digits = len(f'{len(group_list)}')` from `_analyze_elements`. -/
def size_of_digits (n : ℕ) : ℕ := (natStr n).length

/-- `_group_number(index, size_of_digits)`: the 1-based index, zero-padded. -/
def group_number (index w : ℕ) : String := rjust (natStr (index + 1)) w '0'

/-- The padded most-significant-first digit list behind `group_number`. -/
def padDigits (w m : ℕ) : List ℕ :=
  List.replicate (w - (msDigits m).length) 0 ++ msDigits m

/-- Python `str.replace(pat, rep)` on character lists (all occurrences,
scanning left to right); fuel-based so that it evaluates by kernel
reduction (fuel `s.length` always suffices). -/
def pyReplaceAux (pat rep : List Char) : ℕ → List Char → List Char
  | _, [] => []
  | 0, s => s
  | fuel+1, c :: cs =>
    if pat.isPrefixOf (c :: cs) then
      rep ++ pyReplaceAux pat rep fuel ((c :: cs).drop pat.length)
    else
      c :: pyReplaceAux pat rep fuel cs

/-- Python `str.replace(pat, rep)`. -/
def pyReplace (s pat rep : String) : String :=
  ⟨pyReplaceAux pat.data rep.data s.data.length s.data⟩

/-- `_group_svg_id(group_name)`: replace `"group_"` with
`"nerve_feature_"`. -/
def group_svg_id (group_name : String) : String :=
  pyReplace group_name "group_" "nerve_feature_"

/-- `_is_group_svg_id(name)`: does the name start with
`"nerve_feature_"`? -/
def is_group_svg_id (name : String) : Bool :=
  "nerve_feature_".data.isPrefixOf name.data

/-- The path-group label `f"group_{_group_number(index, w)}"` used by
`_analyze_elements`, with `w` the digit width of the total group count. -/
def group_label (index n : ℕ) : String :=
  "group_" ++ group_number index (size_of_digits n)

/-!
## Definitions: the path stitcher (`_create_key`, `UnionFind`,
`_connected_segments`)

The union-find parent array is a list of optional parent indices (`none`
renders the `-1` sentinel of the source).  `find` carries out path
compression; it is written with explicit fuel (the source's recursion
terminates because parent chains are acyclic; fuel `p.length` is always
enough for the arrays the algorithm builds, as proved below).  The
linearisation walk of `_connected_segments` is a `while` loop in the source
with no termination guarantee; it is given fuel `curve.length` and returns
`none` when the fuel runs out, which models non-termination.
-/

/-- `int(q * 1e12)` computed on the numerator and denominator, so that it
evaluates by kernel reduction; `truncScale_eq_pyInt` below identifies it with
`pyInt (q * 1e12)`. -/
def truncScale (q : ℚ) : ℤ := (q.num * 1000000000000).tdiv q.den

/-- `_create_key(pt)`: quantise a 2D point by scaling both coordinates by
`1e12` and truncating to integers. -/
def create_key (pt : List ℚ) : ℤ × ℤ :=
  (truncScale (pt.getD 0 0), truncScale (pt.getD 1 0))

/-- The `begin_hash` dictionary: start-key of every segment to its index,
later bindings shadowing earlier ones (Python overwrite), modelled by
prepending so that `List.lookup` returns the most recent binding. -/
def begin_hash (curve : List Seg) : List ((ℤ × ℤ) × ℕ) :=
  ((List.range curve.length).map (fun i =>
    (create_key ((curve.getD i default).b0), i))).reverse

/-- The successor of segment `i`: the segment whose start-key (in
`begin_hash`) equals the end-key of segment `i`. -/
def succ_index (curve : List Seg) (i : ℕ) : Option ℕ :=
  (begin_hash curve).lookup (create_key ((curve.getD i default).b3))

/-- `UnionFind.find` with path compression, fuelled. -/
def ufFindAux : ℕ → List (Option ℕ) → ℕ → ℕ × List (Option ℕ)
  | 0, p, i => (i, p)
  | fuel+1, p, i =>
    match p.getD i none with
    | none => (i, p)
    | some j =>
      let r := ufFindAux fuel p j
      (r.1, r.2.set i (some r.1))

/-- `UnionFind.find(i)`: returns the root and the compressed parent array. -/
def ufFind (p : List (Option ℕ)) (i : ℕ) : ℕ × List (Option ℕ) :=
  ufFindAux p.length p i

/-- `UnionFind.union(i, j)`: root of `i` is attached below root of `j` when
they differ (the returned root of the source is unused by the caller). -/
def ufUnion (p : List (Option ℕ)) (i j : ℕ) : List (Option ℕ) :=
  let fi := ufFind p i
  let fj := ufFind fi.2 j
  if fi.1 ≠ fj.1 then fj.2.set fi.1 (some fj.1) else fj.2

/-- The union pass of `_connected_segments`: for every segment, if its
end-key is a start-key, union the target segment with it. -/
def union_loop (curve : List Seg) : List (Option ℕ) :=
  (List.range curve.length).foldl (fun p i =>
    match succ_index curve i with
    | some target => ufUnion p target i
    | none => p)
    (List.replicate curve.length none)

/-- `sets[root].append(i)`, keys in first-appearance order. -/
def add_to_sets (sets : List (ℕ × List ℕ)) (r i : ℕ) : List (ℕ × List ℕ) :=
  if (sets.lookup r).isSome then
    sets.map (fun e => if e.1 = r then (e.1, e.2 ++ [i]) else e)
  else sets ++ [(r, [i])]

/-- The grouping pass of `_connected_segments`: group indices by their
union-find root (threading the parent array through the compressing
`find` calls). -/
def sets_loop (curve : List Seg) : List (ℕ × List ℕ) × List (Option ℕ) :=
  (List.range curve.length).foldl (fun st i =>
    let fr := ufFind st.2 i
    (add_to_sets st.1 fr.1 i, fr.2))
    ([], union_loop curve)

/-- The `while key in begin_hash` walk of `_connected_segments`, on segment
indices; `some [s]` without recursing renders the `old_key == key` self-loop
guard (the segment is appended before the guard breaks), `none` models
running out of fuel, i.e. an infinite loop in the source. -/
def walk_aux (curve : List Seg) : ℕ → ℤ × ℤ → Option (List ℕ)
  | 0, _ => none
  | fuel+1, key =>
    match (begin_hash curve).lookup key with
    | none => some []
    | some s =>
      let key2 := create_key ((curve.getD s default).b3)
      if key = key2 then some [s]
      else (walk_aux curve fuel key2).map (fun l => s :: l)

/-- One reconstructed path: the starting set member `s` followed by the
walk from its end-key. -/
def walk_from (curve : List Seg) (root : ℕ) : Option (List ℕ) :=
  (walk_aux curve curve.length (create_key ((curve.getD root default).b3))).map
    (fun l => root :: l)

/-- `_connected_segments` on indices: one walk per `sets` key. -/
def connected_segment_indices (curve : List Seg) : Option (List (List ℕ)) :=
  (sets_loop curve).1.mapM (fun e => walk_from curve e.1)

/-- `_connected_segments(curve)`: the connected paths of one group's Bézier
segments (`none` models the non-terminating loop of the source). -/
def connected_segments (curve : List Seg) : Option (List (List Seg)) :=
  (connected_segment_indices curve).map
    (List.map (List.map (fun i => curve.getD i default)))

/-!
## Definitions: proof-side views of the stitcher

`cminAux` chases a partial predecessor function to its root; it serves both
for the ideal chain-head computation (`cmin`) and for reading off union-find
roots without compression (`root_of`).  `chain` is the ideal walk order.
-/

/-- Chase `pred` upwards for at most `fuel` steps. -/
def cminAux (pred : ℕ → Option ℕ) : ℕ → ℕ → ℕ
  | 0, x => x
  | fuel+1, x =>
    match pred x with
    | none => x
    | some k => cminAux pred fuel k

/-- The predecessor of `i` among the first `t` segments: the first `k < t`
whose successor is `i`. -/
def pred_at (curve : List Seg) (t i : ℕ) : Option ℕ :=
  (List.range t).find? (fun k => succ_index curve k == some i)

/-- The head of the processed chain of `i` after the first `t` unions. -/
def cmin (curve : List Seg) (t i : ℕ) : ℕ :=
  cminAux (pred_at curve t) curve.length i

/-- The parent array read as a predecessor function. -/
def parent_pred (p : List (Option ℕ)) : ℕ → Option ℕ := fun x => p.getD x none

/-- The root of `i` in the parent array, without compression. -/
def root_of (p : List (Option ℕ)) (i : ℕ) : ℕ :=
  cminAux (parent_pred p) p.length i

/-- The ideal walk after a segment: its successor chain. -/
def chain_tail (curve : List Seg) : ℕ → ℕ → List ℕ
  | 0, _ => []
  | fuel+1, x =>
    match succ_index curve x with
    | none => []
    | some y => y :: chain_tail curve fuel y

/-- The ideal walk from a chain head. -/
def chain (curve : List Seg) (r : ℕ) : List ℕ :=
  r :: chain_tail curve curve.length r

/-- The invariant tying a union-find parent array after `t` union steps to
the ideal chain heads `cmin curve t`: pointers stay in range, strictly
decrease the rank `ρ`, and preserve the chain head; rootless entries are
their own chain head. -/
def StitchInv (curve : List Seg) (ρ : ℕ → ℕ) (t : ℕ) (p : List (Option ℕ)) : Prop :=
  p.length = curve.length ∧
  (∀ x j, p.getD x none = some j →
    j < curve.length ∧ ρ j < ρ x ∧ cmin curve t x = cmin curve t j) ∧
  (∀ x, p.getD x none = none → cmin curve t x = x)

/-!
## Definitions: scene model and `_analyze_elements`

The Zinc scene is modelled by the values its API calls return: a list of
groups (name and mesh-membership test by element index) and a list of mesh
elements carrying the results of the four `evaluateReal` calls (`none`
models an evaluation that does not return `RESULT_OK`).
-/

/-- One sampled element: `[(values_1, derivatives_1), (values_2,
derivatives_2)]`. -/
abbrev Sample := (List ℚ × List ℚ) × (List ℚ × List ℚ)

/-- A value of the `grouped_path_points` dictionary: either an ordered list
of element samples (at `"ungrouped"` and `group_NNN` keys) or a display-name
string (at `nerve_feature_NNN` keys). -/
inductive PathVal where
  | pts (l : List Sample)
  | dname (s : String)
deriving DecidableEq, Repr

/-- A group of the scene: display name and element membership of its 3D
mesh group. -/
structure MGroup where
  name : String
  contains : ℕ → Bool

/-- One 3D mesh element, carrying what the four `_evaluate_field_data`
calls return (coordinates and xi-1 derivatives at `(0, 0.5, 0.5)` and
`(1, 0.5, 0.5)`); `none` is an evaluation failure. -/
structure MElem where
  v1 : Option (List ℚ)
  v2 : Option (List ℚ)
  d1 : Option (List ℚ)
  d2 : Option (List ℚ)

/-- `line_path_points` for one element: defined when all four evaluations
succeed with non-empty value lists (Python truthiness of `values_1 and
values_2 and derivatives_1 and derivatives_2`). -/
def line_path_points (e : MElem) : Option Sample :=
  match e.v1, e.v2, e.d1, e.d2 with
  | some (a :: a1), some (b :: b1), some (c :: c1), some (d :: d1) =>
    some (((a :: a1), (c :: c1)), ((b :: b1), (d :: d1)))
  | _, _, _, _ => none

/-- Append a sample to the list stored at `key`; `none` models the Python
`KeyError` (key absent) or `AttributeError` (value is a string) the source
would raise. -/
def append_at (d : List (String × PathVal)) (key : String) (sp : Sample) :
    Option (List (String × PathVal)) :=
  match d with
  | [] => none
  | (k, v) :: rest =>
    if k = key then
      match v with
      | .pts l => some ((k, .pts (l ++ [sp])) :: rest)
      | .dname _ => none
    else
      (append_at rest key sp).map (fun r => (k, v) :: r)

/-- The group-membership pass of `_analyze_elements` for one element: append
its sample to every containing group's list, and to `"ungrouped"` when no
group contains it. -/
def assign_element (groups : List MGroup) (w : ℕ) (eidx : ℕ) (sp : Sample)
    (d0 : List (String × PathVal)) : Option (List (String × PathVal)) :=
  let st := groups.enum.foldl
    (fun (st : Option (List (String × PathVal)) × Bool) kg =>
      if kg.2.contains eidx then
        (st.1.bind (fun d => append_at d ("group_" ++ group_number kg.1 w) sp), true)
      else st)
    (some d0, false)
  if st.2 then st.1 else st.1.bind (fun d => append_at d "ungrouped" sp)

/-- The initial `grouped_path_points` dictionary: `"ungrouped"` first, then,
for every group not named `"marker"`, its `group_NNN` key (empty sample
list) and its `nerve_feature_NNN` key (display name). -/
def init_dict (groups : List MGroup) (w : ℕ) : List (String × PathVal) :=
  ("ungrouped", .pts []) ::
    groups.enum.foldl (fun acc kg =>
      if kg.2.name ≠ "marker" then
        acc ++ [("group_" ++ group_number kg.1 w, .pts []),
                (group_svg_id ("group_" ++ group_number kg.1 w), .dname kg.2.name)]
      else acc) []

/-- `_analyze_elements(region, "coordinates")`: an empty mesh yields the
empty result (the source returns the empty list there; downstream consumers
only iterate it, so the empty dictionary renders it); otherwise build the
initial dictionary and run the element loop.  `none` models the uncaught
`KeyError` the source raises when an element belongs to a group named
`"marker"` (which received no `group_NNN` key). -/
def analyze_elements (groups : List MGroup) (elems : List MElem) :
    Option (List (String × PathVal)) :=
  if elems.length = 0 then some [] else
  elems.enum.foldl (fun st ie =>
      st.bind (fun d =>
        match line_path_points ie.2 with
        | some sp => assign_element groups (size_of_digits groups.length) ie.1 sp d
        | none => some d))
    (some (init_dict groups (size_of_digits groups.length)))

/-- `_calculate_bezier_control_points(point_data)`: convert every group's
non-empty sample list (`if point_data[point_group] and isinstance(...,
list)`) to Bézier segments; empty lists and the name strings are skipped. -/
def calculate_bezier_control_points (point_data : List (String × PathVal)) :
    List (String × List Seg) :=
  point_data.foldl (fun bez kv =>
    match kv.2 with
    | .pts [] => bez
    | .pts (c :: cs) =>
      bez ++ [(kv.1, (c :: cs).map (fun cp => calculate_bezier_curve cp.1 cp.2))]
    | .dname _ => bez) []

/-!
## Definitions: markers (`_calculate_markers`) and the SVG writer
-/

/-- One datapoint of the marker group: its identifier and the values the
external field evaluations would return for it. -/
structure MarkerPoint where
  identifier : ℕ
  coordValues : List ℚ
  nameValue : String
  idValue : String
deriving DecidableEq, Repr

/-- The marker-relevant state of the scene: which fields exist
(`marker_data_coordinates`, `marker_data_name`, `marker_data_id`), whether a
group named `marker`/`markers` was found, and the datapoints of that group
in iteration order. -/
structure MarkerScene where
  coordFieldValid : Bool
  nameFieldValid : Bool
  idFieldValid : Bool
  groupFound : Bool
  points : List MarkerPoint
deriving DecidableEq, Repr

/-- One extracted marker tuple
`(f"marker_{identifier}", values[:2], name, onto_id)`. -/
structure Marker where
  svgId : String
  coords : List ℚ
  name : String
  models : String
deriving DecidableEq, Repr

/-- `_calculate_markers(region, ...)`: extract the marker tuples.  The
random draw of `random.randint(1, 99999)` is injected as the stream `rand`
(one draw per marker position).  When the coordinate field is absent its
evaluation yields no components, so `values[:2]` is empty. -/
def calculate_markers (s : MarkerScene) (rand : ℕ → ℕ) : List Marker :=
  if s.groupFound then
    s.points.enum.map (fun ip =>
      { svgId := "marker_" ++ natStr ip.2.identifier
        coords := (if s.coordFieldValid then ip.2.coordValues else []).take 2
        name := if s.nameFieldValid then ip.2.nameValue
                else "Unnamed marker " ++ natStr (ip.1 + 1)
        models := if s.idFieldValid then ip.2.idValue
                  else "UBERON:99" ++ rjust (natStr (rand ip.1)) 5 '0' })
  else []

/-- Decimal text of a rational; stands in for Python float formatting (no
claim depends on the printed form of a coordinate). -/
def ratStr (q : ℚ) : String := toString q

/-- The `<circle>` element for one marker.  The source wraps the appends in
`try/except IndexError`: a marker whose coordinate list is shorter than two
entries contributes nothing (`none`) and only a diagnostic is printed. -/
def marker_circle (m : Marker) : Option String :=
  if 2 ≤ m.coords.length then
    some ("<circle cx=\"" ++ ratStr (m.coords.getD 0 0) ++ "\" cy=\"" ++
      ratStr (m.coords.getD 1 0) ++ "\" r=\"3\" fill-opacity=\"0.0\">" ++
      "<title>.id(" ++ m.svgId ++ ")</title>" ++ "</circle>")
  else none

/-- `_write_connected_svg_bezier_path(bezier_path, group_name)`. -/
def write_connected_svg_bezier_path (bezier_path : List (List Seg))
    (group_name : Option String) : String :=
  let stroke := match group_name with
    | none => "grey"
    | some _ => "#01136e"
  "<path d=\"" ++
    String.join (bezier_path.enum.map (fun isec =>
      let m_space := if isec.1 = 0 then "" else " "
      String.join (isec.2.enum.map (fun jb =>
        (if jb.1 = 0 then
          m_space ++ "M " ++ ratStr (jb.2.b0.getD 0 0) ++ " " ++ ratStr (jb.2.b0.getD 1 0)
        else "") ++
        " C " ++ ratStr (jb.2.b1.getD 0 0) ++ " " ++ ratStr (jb.2.b1.getD 1 0) ++ ", " ++
        ratStr (jb.2.b2.getD 0 0) ++ " " ++ ratStr (jb.2.b2.getD 1 0) ++ ", " ++
        ratStr (jb.2.b3.getD 0 0) ++ " " ++ ratStr (jb.2.b3.getD 1 0))))) ++
  "\" stroke=\"" ++ stroke ++ "\" fill=\"none\"" ++
  (match group_name with
   | none => "/>"
   | some g => "><title>.centreline id(" ++ group_svg_id g ++ ")</title></path>")

/-- `_write_into_svg_format(bezier_data, markers)`: one `<path>` per group
(after stitching its segments into connected paths) and one zero-opacity
`<circle>` per marker with at least two coordinates.  `none` propagates a
non-terminating stitch. -/
def write_into_svg_format (bezier_data : List (String × List Seg))
    (markers : List Marker) : Option String :=
  (bezier_data.mapM (fun g =>
      (connected_segments g.2).map (fun connected_paths =>
        write_connected_svg_bezier_path connected_paths
          (if g.1 = "ungrouped" then none else some g.1)))).map (fun pathStrs =>
    "<svg width=\"1000\" height=\"1000\" viewBox=\"WWW XXX YYY ZZZ\" xmlns=\"http://www.w3.org/2000/svg\">" ++
    String.join pathStrs ++
    String.join (markers.map (fun m => (marker_circle m).getD "")) ++
    "</svg>")

/-!
## Definitions: annotation CSV and the properties features
-/

/-- `_is_annotation_csv_file(csv_reader)`: the first row must be exactly the
header `Term ID,Group name` and every later row must have exactly two
columns.  (A reader with no rows at all passes the loop untouched and is
accepted.) -/
def is_annotation_csv_file (rows : List (List String)) : Bool :=
  match rows with
  | [] => true
  | first :: rest =>
    if first.length == 2 && first.getD 0 "" == "Term ID" &&
        first.getD 1 "" == "Group name" then
      rest.all (fun row => row.length == 2)
    else false

/-- `_reverse_map_annotations(csv_reader)`: skip the header, then map each
row's second column to its first; later rows shadow earlier ones (Python
dict assignment), modelled by prepending so that `List.lookup` returns the
most recent binding. -/
def reverse_map_annotations (rows : List (List String)) : List (String × String) :=
  match rows with
  | [] => []
  | _ :: rest =>
    rest.foldl (fun m row => (row.getD 1 "", row.getD 0 "") :: m) []

/-- `_label_has_annotations(entry, annotation_map)`: the entry is a key and
its value is truthy (a non-empty string). -/
def label_has_annotations (entry : String)
    (annotation_map : List (String × String)) : Bool :=
  match annotation_map.lookup entry with
  | some v => v ≠ ""
  | none => false

/-- A `features` entry of the properties JSON: a centreline
`{"label": ..., "type": "centreline"}` with an optional `models` field, or a
marker `{"name": ..., "models": ..., "colour": "orange"}`. -/
inductive Feature where
  | centreline (label : PathVal) (models : Option String)
  | markerF (name : String) (models : String) (colour : String)
deriving DecidableEq, Repr

/-- Python dict assignment `d[key] = v` on an association list: replace the
binding in place when the key exists, else append. -/
def assocSet (d : List (String × Feature)) (key : String) (v : Feature) :
    List (String × Feature) :=
  if (d.lookup key).isSome then
    d.map (fun kv => if kv.1 = key then (kv.1, v) else kv)
  else d ++ [(key, v)]

/-- The `features` construction of `export_flatmapsvg_from_scene`
(lines 126-152): a centreline feature for every `nerve_feature_` key of
`path_points`, with a `models` field when the annotation map holds a truthy
value for the display name, then one marker feature per marker. -/
def build_features (path_points : List (String × PathVal))
    (reversed_map : Option (List (String × String))) (markers : List Marker) :
    List (String × Feature) :=
  let base := path_points.foldl (fun acc kv =>
    if is_group_svg_id kv.1 then
      acc ++ [(kv.1, .centreline kv.2
        (match reversed_map, kv.2 with
         | some m, .dname s =>
           if label_has_annotations s m then m.lookup s else none
         | _, _ => none))]
    else acc) []
  markers.foldl (fun acc m =>
    assocSet acc m.svgId (.markerF m.name m.models "orange")) base

/-- The value stored by `build_features` for a `nerve_feature_` entry. -/
def centreline_feature (reversed_map : Option (List (String × String)))
    (pv : PathVal) : Feature :=
  Feature.centreline pv
    (match reversed_map, pv with
     | some m, .dname s => if label_has_annotations s m then m.lookup s else none
     | _, _ => none)

end FlatmapSvg

namespace FlatmapSvg

/-! ## Theorems: numeric helpers -/

/-- Truncation towards zero of the fraction `a / b`, as a fact about `tdiv`. -/
theorem tdiv_eq_trunc (a : ℤ) (b : ℕ) (hb : b ≠ 0) :
    a.tdiv b = if ((a : ℚ) / (b : ℚ)) < 0 then -⌊(-((a : ℚ) / (b : ℚ)))⌋ else ⌊(a : ℚ) / (b : ℚ)⌋ := by
  have hbpos : (0 : ℚ) < (b : ℚ) := by
    exact_mod_cast Nat.pos_of_ne_zero hb
  rcases le_or_lt 0 a with ha | ha
  · have hq : (0 : ℚ) ≤ (a : ℚ) / (b : ℚ) :=
      div_nonneg (by exact_mod_cast ha) hbpos.le
    rw [if_neg (not_lt.mpr hq), Int.tdiv_eq_ediv ha (by positivity),
      Rat.floor_intCast_div_natCast]
  · have hq : (a : ℚ) / (b : ℚ) < 0 :=
      div_neg_of_neg_of_pos (by exact_mod_cast ha) hbpos
    rw [if_pos hq]
    have h1 : a.tdiv b = -((-a).tdiv b) := by
      rw [Int.neg_tdiv, neg_neg]
    rw [h1, Int.tdiv_eq_ediv (by omega) (by positivity)]
    have h2 : -((a : ℚ) / (b : ℚ)) = ((-a : ℤ) : ℚ) / (b : ℚ) := by
      push_cast
      ring
    rw [h2, Rat.floor_intCast_div_natCast]

theorem pyInt_eq_floor (q : ℚ) : pyInt q = if q < 0 then -⌊(-q : ℚ)⌋ else ⌊q⌋ := by
  unfold pyInt
  rw [tdiv_eq_trunc q.num q.den q.den_nz, Rat.num_div_den]

theorem pyInt_of_nonneg (q : ℚ) (h : 0 ≤ q) : pyInt q = ⌊q⌋ := by
  rw [pyInt_eq_floor, if_neg (not_lt.mpr h)]

theorem pyInt_of_neg (q : ℚ) (h : q < 0) : pyInt q = -⌊(-q : ℚ)⌋ := by
  rw [pyInt_eq_floor, if_pos h]

theorem pyInt_lt_add_one (q : ℚ) : (pyInt q : ℚ) < q + 1 := by
  rw [pyInt_eq_floor]
  split_ifs with h
  · have h2 : (-q : ℚ) < ⌊-q⌋ + 1 := Int.lt_floor_add_one (-q)
    push_cast
    linarith
  · have h2 : (⌊q⌋ : ℚ) ≤ q := Int.floor_le q
    linarith

theorem lt_pyInt_add_one (q : ℚ) : q - 1 < (pyInt q : ℚ) := by
  rw [pyInt_eq_floor]
  split_ifs with h
  · have h2 : (⌊-q⌋ : ℚ) ≤ -q := Int.floor_le (-q)
    push_cast
    linarith
  · have h2 : q < ⌊q⌋ + 1 := Int.lt_floor_add_one q
    linarith

/-! ## Theorems: claims C3 and C4 -/

/-- C3: for every element sample pair `((P0, T0), (P1, T1))` with at least
two components per vector, the Bézier converter returns exactly
`b0 = P0, b1 = P0 + T0/3, b2 = P1 - T1/3, b3 = P1` computed on the first two
components, so in particular the anchors `b0 = P0` and `b3 = P1` are exact;
the conversion is a total function (it never fails on such input). -/
theorem C3_bezier_converter_formula (p0 t0 p1 t1 : List ℚ)
    (hp0 : 2 ≤ p0.length) (ht0 : 2 ≤ t0.length)
    (hp1 : 2 ≤ p1.length) (ht1 : 2 ≤ t1.length) :
    calculate_bezier_curve (p0, t0) (p1, t1) =
      { b0 := pairToList (firstTwo p0)
        b1 := pairToList (bezier_spec (firstTwo p0) (firstTwo t0) (firstTwo p1) (firstTwo t1)).2.1
        b2 := pairToList (bezier_spec (firstTwo p0) (firstTwo t0) (firstTwo p1) (firstTwo t1)).2.2.1
        b3 := pairToList (firstTwo p1) } := by
  rcases p0 with _ | ⟨x0, _ | ⟨y0, r0⟩⟩ <;> simp at hp0
  rcases t0 with _ | ⟨u0, _ | ⟨v0, s0⟩⟩ <;> simp at ht0
  rcases p1 with _ | ⟨x1, _ | ⟨y1, r1⟩⟩ <;> simp at hp1
  rcases t1 with _ | ⟨u1, _ | ⟨v1, s1⟩⟩ <;> simp at ht1
  simp [calculate_bezier_curve, bezier_spec, firstTwo, pairToList, add, sub, div]

/-- Witness for C3 at a concrete sample pair. -/
theorem C3_bezier_converter_formula_witness :
    2 ≤ ([1, 2, 5] : List ℚ).length ∧
    calculate_bezier_curve ([1, 2, 5], [3, 6, 7]) ([4, 8, 9], [6, 3, 2]) =
      { b0 := pairToList (firstTwo [1, 2, 5])
        b1 := pairToList (bezier_spec (firstTwo [1, 2, 5]) (firstTwo [3, 6, 7])
                (firstTwo [4, 8, 9]) (firstTwo [6, 3, 2])).2.1
        b2 := pairToList (bezier_spec (firstTwo [1, 2, 5]) (firstTwo [3, 6, 7])
                (firstTwo [4, 8, 9]) (firstTwo [6, 3, 2])).2.2.1
        b3 := pairToList (firstTwo [4, 8, 9]) } :=
  ⟨by decide,
   C3_bezier_converter_formula [1, 2, 5] [3, 6, 7] [4, 8, 9] [6, 3, 2]
     (by decide) (by decide) (by decide) (by decide)⟩

/-- C4 as stated is false: with true bounding box
`[min_x, max_x, min_y, max_y] = [0.6, 1.6, 0, 1]` the emitted
`viewBox` x-origin is `int(0.6 + 0.5) - 10 = -9`, which is strictly greater
than `min_x - 10 = -9.4`, so the viewport does not extend a full 10-unit
margin to the left of the geometry. -/
theorem C4_cex_viewport_margin_not_ten :
    ¬ ((((view_box ⟨3/5, 8/5, 0, 1⟩).1 : ℤ) : ℚ) ≤ 3/5 - 10 ∧
       (8 : ℚ)/5 + 10 ≤ (((view_box ⟨3/5, 8/5, 0, 1⟩).1 +
          (view_box ⟨3/5, 8/5, 0, 1⟩).2.2.1 : ℤ) : ℚ) ∧
       (((view_box ⟨3/5, 8/5, 0, 1⟩).2.1 : ℤ) : ℚ) ≤ 0 - 10 ∧
       (1 : ℚ) + 10 ≤ (((view_box ⟨3/5, 8/5, 0, 1⟩).2.1 +
          (view_box ⟨3/5, 8/5, 0, 1⟩).2.2.2 : ℤ) : ℚ)) := by
  have e1 : pyInt ((3 : ℚ)/5 + 1/2) = 1 := by
    rw [pyInt_of_nonneg _ (by norm_num), Int.floor_eq_iff]
    norm_num
  have e2 : pyInt ((0 : ℚ) + 1/2) = 0 := by
    rw [pyInt_of_nonneg _ (by norm_num), Int.floor_eq_iff]
    norm_num
  have e3 : pyInt ((8 : ℚ)/5 - 3/5 + 1/2) = 1 := by
    rw [pyInt_of_nonneg _ (by norm_num), Int.floor_eq_iff]
    norm_num
  have e4 : pyInt ((1 : ℚ) - 0 + 1/2) = 1 := by
    rw [pyInt_of_nonneg _ (by norm_num), Int.floor_eq_iff]
    norm_num
  have h : view_box ⟨3/5, 8/5, 0, 1⟩ = (-9, -10, 21, 21) := by
    show (pyInt ((3 : ℚ)/5 + 1/2) - 10, pyInt ((0 : ℚ) + 1/2) - 10,
          pyInt ((8 : ℚ)/5 - 3/5 + 1/2) + 2 * 10, pyInt ((1 : ℚ) - 0 + 1/2) + 2 * 10) =
        (-9, -10, 21, 21)
    rw [e1, e2, e3, e4]
    decide
  rw [h]
  intro hc
  have := hc.1
  norm_num at this

/-- C4 amended: the viewport always contains the rendered geometry, but the
half-unit rounding of the box edges can eat into the 10-unit margin: what is
guaranteed is a margin strictly greater than 8.5 units on the low (min) sides
and strictly greater than 9 units on the high (max) sides, in both axes. -/
theorem C4_viewport_margin_bounds (b : Bbox) :
    (((view_box b).1 : ℤ) : ℚ) < b.min_x - 17/2 ∧
    b.max_x + 9 < (((view_box b).1 + (view_box b).2.2.1 : ℤ) : ℚ) ∧
    (((view_box b).2.1 : ℤ) : ℚ) < b.min_y - 17/2 ∧
    b.max_y + 9 < (((view_box b).2.1 + (view_box b).2.2.2 : ℤ) : ℚ) := by
  obtain ⟨mx, Mx, my, My⟩ := b
  have h1 := pyInt_lt_add_one (mx + 1/2)
  have h2 := lt_pyInt_add_one (mx + 1/2)
  have h3 := pyInt_lt_add_one (my + 1/2)
  have h4 := lt_pyInt_add_one (my + 1/2)
  have h5 := lt_pyInt_add_one (Mx - mx + 1/2)
  have h6 := lt_pyInt_add_one (My - my + 1/2)
  simp only [view_box]
  push_cast
  refine ⟨by linarith, by linarith, by linarith, by linarith⟩

/-! ## Theorems: decimal digits, labels and their lexical order -/

theorem msDigitsAux_fuel {f1 f2 n : ℕ} (h1 : n < f1) (h2 : n < f2) :
    msDigitsAux f1 n = msDigitsAux f2 n := by
  induction f1 using Nat.strong_induction_on generalizing f2 n with
  | _ f1 ih =>
    match f1, f2 with
    | fa + 1, fb + 1 =>
      by_cases h : n < 10
      · simp [msDigitsAux, h]
      · have hpos : 0 < n := by omega
        have hlt : n / 10 < n := Nat.div_lt_self hpos (by norm_num)
        simp only [msDigitsAux, h, if_false]
        rw [@ih fa (by omega) fb (n / 10) (by omega) (by omega)]

theorem digitsVal_append_singleton (l : List ℕ) (d : ℕ) :
    digitsVal (l ++ [d]) = 10 * digitsVal l + d := by
  simp [digitsVal, List.foldl_append]

theorem digitsVal_msDigitsAux {fuel n : ℕ} (h : n < fuel) :
    digitsVal (msDigitsAux fuel n) = n := by
  induction fuel using Nat.strong_induction_on generalizing n with
  | _ fuel ih =>
    match fuel with
    | fa + 1 =>
      by_cases hn : n < 10
      · simp [msDigitsAux, hn, digitsVal]
      · have hpos : 0 < n := by omega
        have hlt : n / 10 < n := Nat.div_lt_self hpos (by norm_num)
        simp only [msDigitsAux, hn, if_false]
        rw [digitsVal_append_singleton, ih fa (by omega) (by omega)]
        omega

theorem length_msDigitsAux {fuel n : ℕ} (h : n < fuel) :
    (msDigitsAux fuel n).length = Nat.log 10 n + 1 := by
  induction fuel using Nat.strong_induction_on generalizing n with
  | _ fuel ih =>
    match fuel with
    | fa + 1 =>
      by_cases hn : n < 10
      · simp [msDigitsAux, hn, Nat.log_eq_zero_iff.mpr (Or.inl hn)]
      · have hpos : 0 < n := by omega
        have hlt : n / 10 < n := Nat.div_lt_self hpos (by norm_num)
        have hlog : 0 < Nat.log 10 n := Nat.log_pos (by norm_num) (by omega)
        have hdiv := Nat.log_div_base 10 n
        simp only [msDigitsAux, hn, if_false, List.length_append,
          List.length_singleton]
        rw [ih fa (by omega) (by omega)]
        omega

theorem msDigitsAux_digit_lt {fuel n : ℕ} : ∀ d ∈ msDigitsAux fuel n, d < 10 := by
  induction fuel generalizing n with
  | zero => simp [msDigitsAux]
  | succ fa ih =>
    by_cases hn : n < 10
    · intro d hd
      simp [msDigitsAux, hn] at hd
      omega
    · simp only [msDigitsAux, hn, if_false]
      intro d hd
      rcases List.mem_append.mp hd with h | h
      · exact ih d h
      · simp at h
        omega

theorem digitsVal_msDigits (n : ℕ) : digitsVal (msDigits n) = n :=
  digitsVal_msDigitsAux (Nat.lt_succ_self n)

theorem length_msDigits (n : ℕ) : (msDigits n).length = Nat.log 10 n + 1 :=
  length_msDigitsAux (Nat.lt_succ_self n)

theorem msDigits_digit_lt (n : ℕ) : ∀ d ∈ msDigits n, d < 10 :=
  msDigitsAux_digit_lt

theorem natStr_length (n : ℕ) : (natStr n).length = Nat.log 10 n + 1 := by
  show ((msDigits n).map digitChar).length = Nat.log 10 n + 1
  rw [List.length_map, length_msDigits]

theorem size_of_digits_eq (n : ℕ) : size_of_digits n = Nat.log 10 n + 1 :=
  natStr_length n

/-- The digit width `len(f'{n}')` equals `⌈log10(n + 1)⌉` for `n ≥ 1`. -/
theorem size_of_digits_eq_clog (n : ℕ) (hn : 1 ≤ n) :
    size_of_digits n = Nat.clog 10 (n + 1) := by
  rw [size_of_digits_eq]
  refine le_antisymm ?_ ?_
  · have h1 : 10 ^ Nat.log 10 n < n + 1 :=
      Nat.lt_succ_of_le (Nat.pow_log_le_self 10 (by omega))
    have h2 : Nat.log 10 n < Nat.clog 10 (n + 1) :=
      (Nat.pow_lt_iff_lt_clog (by norm_num)).mp h1
    omega
  · have h1 : n + 1 ≤ 10 ^ (Nat.log 10 n + 1) :=
      Nat.succ_le_of_lt (Nat.lt_pow_succ_log_self (by norm_num) n)
    exact (Nat.le_pow_iff_clog_le (by norm_num)).mp h1

theorem digitsVal_foldl_acc (l : List ℕ) (a : ℕ) :
    l.foldl (fun x d => 10 * x + d) a = a * 10 ^ l.length + digitsVal l := by
  induction l generalizing a with
  | nil => simp [digitsVal]
  | cons d t ih =>
    show t.foldl (fun x d => 10 * x + d) (10 * a + d) = _
    rw [ih (10 * a + d)]
    have hd : digitsVal (d :: t) = d * 10 ^ t.length + digitsVal t := by
      show t.foldl (fun x d => 10 * x + d) (10 * 0 + d) = _
      rw [ih (10 * 0 + d)]
      ring
    rw [hd]
    simp [List.length_cons, pow_succ]
    ring

theorem digitsVal_cons (d : ℕ) (t : List ℕ) :
    digitsVal (d :: t) = d * 10 ^ t.length + digitsVal t := by
  show t.foldl (fun x d => 10 * x + d) (10 * 0 + d) = _
  rw [digitsVal_foldl_acc]
  ring

theorem digitsVal_lt_pow (l : List ℕ) (h : ∀ d ∈ l, d < 10) :
    digitsVal l < 10 ^ l.length := by
  induction l with
  | nil => simp [digitsVal]
  | cons d t ih =>
    rw [digitsVal_cons]
    have hd : d < 10 := h d (List.mem_cons_self d t)
    have ht : digitsVal t < 10 ^ t.length := ih fun x hx => h x (List.mem_cons_of_mem d hx)
    have : d * 10 ^ t.length + digitsVal t < (d + 1) * 10 ^ t.length := by
      nlinarith
    calc d * 10 ^ t.length + digitsVal t < (d + 1) * 10 ^ t.length := this
      _ ≤ 10 * 10 ^ t.length := by
          have : d + 1 ≤ 10 := hd
          exact Nat.mul_le_mul_right _ this
      _ = 10 ^ (d :: t).length := by
          rw [List.length_cons, pow_succ]
          ring

theorem digitsVal_replicate_zero (k : ℕ) (l : List ℕ) :
    digitsVal (List.replicate k 0 ++ l) = digitsVal l := by
  induction k with
  | zero => simp
  | succ k ih =>
    rw [List.replicate_succ, List.cons_append, digitsVal_cons]
    simpa using ih

/-- Equal-length lists of decimal digits compare lexicographically exactly as
their numeric values do. -/
theorem lex_iff_digitsVal (l1 l2 : List ℕ) (hlen : l1.length = l2.length)
    (h1 : ∀ d ∈ l1, d < 10) (h2 : ∀ d ∈ l2, d < 10) :
    List.Lex (· < ·) l1 l2 ↔ digitsVal l1 < digitsVal l2 := by
  induction l1 generalizing l2 with
  | nil =>
    match l2, hlen with
    | [], _ =>
      constructor
      · intro h
        cases h
      · intro h
        simp [digitsVal] at h
  | cons d1 t1 ih =>
    match l2, hlen with
    | d2 :: t2, hlen =>
      have hlen' : t1.length = t2.length := by simpa using hlen
      have hd1 : d1 < 10 := h1 d1 (List.mem_cons_self _ _)
      have hd2 : d2 < 10 := h2 d2 (List.mem_cons_self _ _)
      have ht1 : ∀ d ∈ t1, d < 10 := fun x hx => h1 x (List.mem_cons_of_mem _ hx)
      have ht2 : ∀ d ∈ t2, d < 10 := fun x hx => h2 x (List.mem_cons_of_mem _ hx)
      rcases lt_trichotomy d1 d2 with hlt | heq | hgt
      · constructor
        · intro _
          rw [digitsVal_cons, digitsVal_cons, hlen']
          have hv1 : digitsVal t1 < 10 ^ t2.length := by
            rw [← hlen']
            exact digitsVal_lt_pow t1 ht1
          nlinarith
        · intro _
          exact List.Lex.rel hlt
      · subst heq
        rw [List.Lex.cons_iff]
        rw [digitsVal_cons, digitsVal_cons, hlen']
        constructor
        · intro h
          have := (ih t2 hlen' ht1 ht2).mp h
          omega
        · intro h
          refine (ih t2 hlen' ht1 ht2).mpr ?_
          omega
      · constructor
        · intro h
          cases h with
          | rel hr => omega
          | cons h => omega
        · intro h
          rw [digitsVal_cons, digitsVal_cons, hlen'] at h
          have hv2 : digitsVal t2 < 10 ^ t2.length := digitsVal_lt_pow t2 ht2
          nlinarith

/-- A common prefix does not affect the lexicographic comparison. -/
theorem lex_append_left_iff {α : Type} [LinearOrder α] (p l1 l2 : List α) :
    List.Lex (· < ·) (p ++ l1) (p ++ l2) ↔ List.Lex (· < ·) l1 l2 := by
  induction p with
  | nil => simp
  | cons c p ih =>
    rw [List.cons_append, List.cons_append, List.Lex.cons_iff]
    exact ih

/-- Head inversion for lexicographic comparison of cons cells. -/
theorem lex_cons_inv {α : Type} {r : α → α → Prop} {a b : α} {l1 l2 : List α}
    (h : List.Lex r (a :: l1) (b :: l2)) : r a b ∨ (a = b ∧ List.Lex r l1 l2) := by
  cases h with
  | rel hr => exact Or.inl hr
  | cons h => exact Or.inr ⟨rfl, h⟩

theorem digitChar_lt_iff :
    ∀ d1 < 10, ∀ d2 < 10, (digitChar d1 < digitChar d2 ↔ d1 < d2) := by decide

theorem digitChar_eq_iff :
    ∀ d1 < 10, ∀ d2 < 10, (digitChar d1 = digitChar d2 ↔ d1 = d2) := by decide

/-- Mapping digits to their characters preserves lexicographic comparison. -/
theorem lex_map_digitChar (l1 l2 : List ℕ)
    (h1 : ∀ d ∈ l1, d < 10) (h2 : ∀ d ∈ l2, d < 10) :
    List.Lex (· < ·) (l1.map digitChar) (l2.map digitChar) ↔
      List.Lex (· < ·) l1 l2 := by
  induction l1 generalizing l2 with
  | nil =>
    match l2 with
    | [] =>
      constructor <;> (intro h; cases h)
    | d2 :: t2 =>
      constructor <;> (intro _; exact List.Lex.nil)
  | cons d1 t1 ih =>
    match l2 with
    | [] =>
      constructor <;> (intro h; cases h)
    | d2 :: t2 =>
      have hd1 : d1 < 10 := h1 d1 (List.mem_cons_self _ _)
      have hd2 : d2 < 10 := h2 d2 (List.mem_cons_self _ _)
      have ht1 : ∀ d ∈ t1, d < 10 := fun x hx => h1 x (List.mem_cons_of_mem _ hx)
      have ht2 : ∀ d ∈ t2, d < 10 := fun x hx => h2 x (List.mem_cons_of_mem _ hx)
      simp only [List.map_cons]
      constructor
      · intro h
        rcases lex_cons_inv h with hr | ⟨heq, htl⟩
        · exact List.Lex.rel ((digitChar_lt_iff d1 hd1 d2 hd2).mp hr)
        · have heq' : d1 = d2 := (digitChar_eq_iff d1 hd1 d2 hd2).mp heq
          subst heq'
          exact List.Lex.cons ((ih t2 ht1 ht2).mp htl)
      · intro h
        rcases lex_cons_inv h with hr | ⟨heq, htl⟩
        · exact List.Lex.rel ((digitChar_lt_iff d1 hd1 d2 hd2).mpr hr)
        · subst heq
          exact List.Lex.cons ((ih t2 ht1 ht2).mpr htl)

theorem natStr_length_eq (m : ℕ) : (natStr m).length = (msDigits m).length := by
  show ((msDigits m).map digitChar).length = (msDigits m).length
  rw [List.length_map]

theorem size_of_digits_eq_msDigits (n : ℕ) :
    size_of_digits n = (msDigits n).length := natStr_length_eq n

theorem rjust_natStr_data (m w : ℕ) :
    (rjust (natStr m) w '0').data = (padDigits w m).map digitChar := by
  have h0 : '0' = digitChar 0 := by decide
  show List.replicate (w - (natStr m).length) '0' ++ (msDigits m).map digitChar
      = (padDigits w m).map digitChar
  rw [padDigits, List.map_append, List.map_replicate, ← h0, natStr_length_eq]

theorem group_number_data (i w : ℕ) :
    (group_number i w).data = (padDigits w (i + 1)).map digitChar :=
  rjust_natStr_data (i + 1) w

theorem padDigits_length (w m : ℕ) (h : (msDigits m).length ≤ w) :
    (padDigits w m).length = w := by
  simp only [padDigits, List.length_append, List.length_replicate]
  omega

theorem padDigits_digit_lt (w m : ℕ) : ∀ d ∈ padDigits w m, d < 10 := by
  intro d hd
  rcases List.mem_append.mp hd with h | h
  · have := List.eq_of_mem_replicate h
    omega
  · exact msDigits_digit_lt m d h

theorem digitsVal_padDigits (w m : ℕ) : digitsVal (padDigits w m) = m := by
  rw [padDigits, digitsVal_replicate_zero, digitsVal_msDigits]

theorem msDigits_length_mono {a b : ℕ} (h : a ≤ b) :
    (msDigits a).length ≤ (msDigits b).length := by
  rw [length_msDigits, length_msDigits]
  exact Nat.succ_le_succ (Nat.log_mono_right h)

theorem group_number_length (i n : ℕ) (hi : i < n) :
    (group_number i (size_of_digits n)).length = size_of_digits n := by
  show (group_number i (size_of_digits n)).data.length = size_of_digits n
  rw [group_number_data, List.length_map, padDigits_length]
  rw [size_of_digits_eq_msDigits]
  exact msDigits_length_mono (by omega)

theorem group_number_lt (n i j : ℕ) (hij : i < j) (hj : j < n) :
    List.Lex (· < ·) (group_number i (size_of_digits n)).data
      (group_number j (size_of_digits n)).data := by
  rw [group_number_data, group_number_data]
  have hlen1 : (msDigits (i + 1)).length ≤ size_of_digits n := by
    rw [size_of_digits_eq_msDigits]
    exact msDigits_length_mono (by omega)
  have hlen2 : (msDigits (j + 1)).length ≤ size_of_digits n := by
    rw [size_of_digits_eq_msDigits]
    exact msDigits_length_mono (by omega)
  refine (lex_map_digitChar _ _ (padDigits_digit_lt _ _) (padDigits_digit_lt _ _)).mpr ?_
  refine (lex_iff_digitsVal _ _ ?_ (padDigits_digit_lt _ _) (padDigits_digit_lt _ _)).mpr ?_
  · rw [padDigits_length _ _ hlen1, padDigits_length _ _ hlen2]
  · rw [digitsVal_padDigits, digitsVal_padDigits]
    omega

theorem group_label_lt_of_lt (n i j : ℕ) (hij : i < j) (hj : j < n) :
    group_label i n < group_label j n := by
  rw [String.lt_iff_toList_lt]
  show List.Lex (· < ·) (("group_" ++ group_number i (size_of_digits n) : String)).data
      (("group_" ++ group_number j (size_of_digits n) : String)).data
  rw [String.data_append, String.data_append]
  exact (lex_append_left_iff _ _ _).mpr (group_number_lt n i j hij hj)

/-- C7: for a non-empty group list of total count `n`, the digit width used
in positional group labels is `len(str(n)) = ⌈log10(n + 1)⌉`; it is computed
once from `n` and applied uniformly (every label `group_NNN` is zero-padded
to exactly that width), and labels compare lexicographically in iteration
order. -/
theorem C7_label_width_and_order (n : ℕ) (hn : 1 ≤ n) :
    size_of_digits n = Nat.clog 10 (n + 1) ∧
    (∀ i, i < n → (group_number i (size_of_digits n)).length = size_of_digits n) ∧
    (∀ i j, i < j → j < n → group_label i n < group_label j n) := by
  refine ⟨size_of_digits_eq_clog n hn, ?_, ?_⟩
  · intro i hi
    exact group_number_length i n hi
  · intro i j hij hj
    exact group_label_lt_of_lt n i j hij hj

/-- Witness for C7 with twelve groups: width 2, padded labels, and the labels
of the first two groups in lexical order. -/
theorem C7_label_width_and_order_witness :
    1 ≤ 12 ∧ (size_of_digits 12 = Nat.clog 10 13 ∧
      (∀ i, i < 12 → (group_number i (size_of_digits 12)).length = size_of_digits 12) ∧
      (∀ i j, i < j → j < 12 → group_label i 12 < group_label j 12)) :=
  ⟨by omega, C7_label_width_and_order 12 (by omega)⟩

/-! ## Theorems: association-list helpers -/

theorem lookup_cons_ite {σ τ : Type} [BEq σ] (k : σ) (kv : σ × τ) (t : List (σ × τ)) :
    List.lookup k (kv :: t) = if k == kv.1 then some kv.2 else List.lookup k t := by
  cases kv with
  | mk a b =>
    rw [List.lookup_cons]
    cases h : k == a
    · simp [h]
    · simp [h]

theorem lookup_mem {σ τ : Type} [BEq σ] [LawfulBEq σ] {l : List (σ × τ)} {k : σ} {v : τ}
    (h : l.lookup k = some v) : (k, v) ∈ l := by
  induction l with
  | nil => simp [List.lookup] at h
  | cons kv t ih =>
    rw [lookup_cons_ite] at h
    by_cases he : (k == kv.1) = true
    · rw [if_pos he] at h
      have hk : k = kv.1 := eq_of_beq he
      injection h with h2
      have hkv : (k, v) = kv := by
        cases kv
        simp at hk h2 ⊢
        exact ⟨hk, h2.symm⟩
      rw [hkv]
      exact List.mem_cons_self _ _
    · rw [if_neg he] at h
      right
      exact ih h

theorem lookup_of_mem_nodup {σ τ : Type} [BEq σ] [LawfulBEq σ] {l : List (σ × τ)} {k : σ} {v : τ}
    (hnd : (l.map Prod.fst).Nodup) (hm : (k, v) ∈ l) : l.lookup k = some v := by
  induction l with
  | nil => cases hm
  | cons kv t ih =>
    rw [List.map_cons, List.nodup_cons] at hnd
    rw [lookup_cons_ite]
    rcases List.mem_cons.mp hm with he | ht
    · rw [← he]
      simp
    · have hk : k ≠ kv.1 := by
        intro he
        exact hnd.1 (he ▸ (List.mem_map.mpr ⟨(k, v), ht, rfl⟩))
      rw [if_neg (by simpa using hk)]
      exact ih hnd.2 ht

theorem lookup_append_left {σ τ : Type} [BEq σ] {l1 l2 : List (σ × τ)} {k : σ} {v : τ}
    (h : l1.lookup k = some v) : (l1 ++ l2).lookup k = some v := by
  induction l1 with
  | nil => simp [List.lookup] at h
  | cons kv t ih =>
    rw [lookup_cons_ite] at h
    rw [List.cons_append, lookup_cons_ite]
    by_cases he : (k == kv.1) = true
    · rwa [if_pos he] at h ⊢
    · rw [if_neg he] at h ⊢
      exact ih h

theorem lookup_append_right {σ τ : Type} [BEq σ] {l1 l2 : List (σ × τ)} {k : σ}
    (h : l1.lookup k = none) : (l1 ++ l2).lookup k = l2.lookup k := by
  induction l1 with
  | nil => simp
  | cons kv t ih =>
    rw [lookup_cons_ite] at h
    by_cases he : (k == kv.1) = true
    · rw [if_pos he] at h
      cases h
    · rw [if_neg he] at h
      rw [List.cons_append, lookup_cons_ite, if_neg he]
      exact ih h

/-- A fold appending per-item blocks is the concatenation of the blocks. -/
theorem foldl_append_bind {α β : Type} (g : α → List β) (l : List α) (acc : List β) :
    l.foldl (fun acc x => acc ++ g x) acc = acc ++ l.flatMap g := by
  induction l generalizing acc with
  | nil => simp
  | cons x t ih =>
    rw [List.foldl_cons, ih, List.flatMap_cons, List.append_assoc]

/-! ## Theorems: claim C6 (the annotation CSV) -/

theorem lookup_map_set_ne (d : List (String × Feature)) (key' key : String)
    (v : Feature) (hne : key ≠ key') :
    (d.map (fun kv => if kv.1 = key' then (kv.1, v) else kv)).lookup key =
      d.lookup key := by
  induction d with
  | nil => simp
  | cons kv t ih =>
    rw [List.map_cons, lookup_cons_ite]
    by_cases he : kv.1 = key'
    · rw [if_pos he, lookup_cons_ite]
      have hne2 : (key == kv.1) = false := beq_eq_false_iff_ne.mpr (he ▸ hne)
      simp only [hne2, Bool.false_eq_true, if_false]
      exact ih
    · rw [if_neg he, lookup_cons_ite]
      by_cases hk : (key == kv.1) = true
      · rw [if_pos hk, if_pos hk]
      · rw [if_neg hk, if_neg hk]
        exact ih

theorem assocSet_lookup_ne (d : List (String × Feature)) (key' : String) (v : Feature)
    (key : String) (hne : key ≠ key') :
    (assocSet d key' v).lookup key = d.lookup key := by
  unfold assocSet
  split_ifs with h
  · exact lookup_map_set_ne d key' key v hne
  · rcases hl : d.lookup key with _ | v'
    · rw [lookup_append_right hl, lookup_cons_ite,
        show (key == key') = false from beq_eq_false_iff_ne.mpr hne]
      simp [List.lookup]
    · exact lookup_append_left hl

theorem mem_assocSet (d : List (String × Feature)) (key' : String) (v : Feature)
    (kv : String × Feature) (h : kv ∈ assocSet d key' v) : kv ∈ d ∨ kv.2 = v := by
  unfold assocSet at h
  split_ifs at h with hc
  · rcases List.mem_map.mp h with ⟨kv0, hkv0, he⟩
    by_cases h0 : kv0.1 = key'
    · rw [if_pos h0] at he
      right
      rw [← he]
    · rw [if_neg h0] at he
      left
      exact he ▸ hkv0
  · rcases List.mem_append.mp h with h | h
    · exact Or.inl h
    · right
      simp at h
      rw [h]

/-- `build_features` as the concatenation of its centreline block followed by
the marker insertions. -/
theorem build_features_eq (path_points : List (String × PathVal))
    (reversed_map : Option (List (String × String))) (markers : List Marker) :
    build_features path_points reversed_map markers =
      markers.foldl (fun acc m =>
        assocSet acc m.svgId (.markerF m.name m.models "orange"))
        (path_points.flatMap (fun kv =>
          if is_group_svg_id kv.1 then [(kv.1, centreline_feature reversed_map kv.2)]
          else [])) := by
  unfold build_features
  have h2 : (fun (acc : List (String × Feature)) (kv : String × PathVal) =>
      if is_group_svg_id kv.1 then
        acc ++ [(kv.1, Feature.centreline kv.2
          (match reversed_map, kv.2 with
           | some m, .dname s =>
             if label_has_annotations s m then m.lookup s else none
           | _, _ => none))]
      else acc) = (fun (acc : List (String × Feature)) (kv : String × PathVal) =>
        acc ++ (if is_group_svg_id kv.1 then
          [(kv.1, centreline_feature reversed_map kv.2)] else [])) := by
    funext acc kv
    split_ifs <;> simp [centreline_feature]
  rw [h2, foldl_append_bind]
  simp

/-- Marker insertions keep every feature value satisfying an invariant that
the inserted marker features satisfy. -/
theorem foldl_assocSet_inv (P : Feature → Prop) (markers : List Marker)
    (acc : List (String × Feature)) (hacc : ∀ kv ∈ acc, P kv.2)
    (hv : ∀ m : Marker, P (.markerF m.name m.models "orange")) :
    ∀ kv ∈ markers.foldl (fun acc m =>
      assocSet acc m.svgId (.markerF m.name m.models "orange")) acc, P kv.2 := by
  induction markers generalizing acc with
  | nil => exact hacc
  | cons m t ih =>
    rw [List.foldl_cons]
    refine ih _ ?_
    intro kv hkv
    rcases mem_assocSet _ _ _ _ hkv with h | h
    · exact hacc _ h
    · rw [h]
      exact hv m

/-- Marker insertions at other keys do not change a lookup. -/
theorem foldl_assocSet_lookup_ne (markers : List Marker)
    (acc : List (String × Feature)) (key : String)
    (hmk : ∀ mk ∈ markers, mk.svgId ≠ key) :
    (markers.foldl (fun acc m =>
      assocSet acc m.svgId (.markerF m.name m.models "orange")) acc).lookup key =
      acc.lookup key := by
  induction markers generalizing acc with
  | nil => rfl
  | cons m t ih =>
    rw [List.foldl_cons, ih _ (fun mk hmk2 => hmk mk (List.mem_cons_of_mem m hmk2)),
      assocSet_lookup_ne]
    exact fun he => hmk m (List.mem_cons_self m t) he.symm

/-- With no accepted annotation file, no centreline feature carries a
`models` value. -/
theorem build_features_none_no_models (path_points : List (String × PathVal))
    (markers : List Marker) (key : String) (pv : PathVal) (mdl : Option String)
    (h : (build_features path_points none markers).lookup key =
      some (.centreline pv mdl)) : mdl = none := by
  rw [build_features_eq] at h
  have hmem := lookup_mem h
  have hinv := foldl_assocSet_inv
    (fun f => ∀ pv mdl, f = Feature.centreline pv mdl → mdl = none) markers
    (path_points.flatMap (fun kv =>
      if is_group_svg_id kv.1 then [(kv.1, centreline_feature none kv.2)] else []))
    ?_ ?_ _ hmem
  · exact hinv pv mdl rfl
  · intro kv hkv
    rcases List.mem_flatMap.mp hkv with ⟨kv0, _, hm⟩
    intro pv mdl he
    split_ifs at hm with hg
    · simp at hm
      rw [hm] at he
      have hcf : centreline_feature none kv0.2 = Feature.centreline kv0.2 none := by
        cases kv0.2 <;> rfl
      rw [hcf] at he
      injection he with h1 h2
      exact h2.symm
    · cases hm
  · intro m pv mdl he
    cases he

/-- The features lookup for a `nerve_feature_` key of `path_points`. -/
theorem build_features_lookup (path_points : List (String × PathVal))
    (reversed_map : Option (List (String × String))) (markers : List Marker)
    (key : String) (pv : PathVal)
    (hnd : (path_points.map Prod.fst).Nodup)
    (hkey : is_group_svg_id key = true)
    (hpp : path_points.lookup key = some pv)
    (hmk : ∀ mk ∈ markers, mk.svgId ≠ key) :
    (build_features path_points reversed_map markers).lookup key =
      some (centreline_feature reversed_map pv) := by
  rw [build_features_eq, foldl_assocSet_lookup_ne _ _ _ hmk]
  induction path_points with
  | nil => simp [List.lookup] at hpp
  | cons kv t ih =>
    rw [List.map_cons, List.nodup_cons] at hnd
    rw [lookup_cons_ite] at hpp
    rw [List.flatMap_cons]
    by_cases he : (key == kv.1) = true
    · rw [if_pos he] at hpp
      injection hpp with h2
      have hk : key = kv.1 := eq_of_beq he
      rw [← hk, hkey, ← h2]
      simp [lookup_cons_ite]
    · rw [if_neg he] at hpp
      have ht := ih hnd.2 hpp
      split_ifs with hg
      · rw [List.singleton_append, lookup_cons_ite, if_neg he]
        exact ht
      · rw [List.nil_append]
        exact ht

theorem header_cond_iff (first : List String) :
    ((first.length == 2 && first.getD 0 "" == "Term ID" &&
      first.getD 1 "" == "Group name") = true) ↔
      first = ["Term ID", "Group name"] := by
  rcases first with _ | ⟨a, _ | ⟨b, _ | ⟨c, t⟩⟩⟩ <;> simp

theorem is_annotation_iff (rows : List (List String)) :
    is_annotation_csv_file rows = true ↔
      (rows = [] ∨ (rows.head? = some ["Term ID", "Group name"] ∧
        ∀ r ∈ rows.tail, r.length = 2)) := by
  match rows with
  | [] => simp [is_annotation_csv_file]
  | first :: rest =>
    rw [is_annotation_csv_file]
    by_cases hf : first = ["Term ID", "Group name"]
    · subst hf
      rw [if_pos (by decide)]
      simp [List.all_eq_true]
    · rw [if_neg (fun hc => hf ((header_cond_iff first).mp hc))]
      simp only [Bool.false_eq_true, false_iff]
      intro hc
      rcases hc with hc | ⟨hc, _⟩
      · cases hc
      · exact hf (by injection hc)

theorem foldl_cons_reverse {α β : Type} (f : α → β) (l : List α) (acc : List β) :
    l.foldl (fun m row => f row :: m) acc = (l.map f).reverse ++ acc := by
  induction l generalizing acc with
  | nil => simp
  | cons x t ih =>
    rw [List.foldl_cons, ih, List.map_cons, List.reverse_cons, List.append_assoc]
    simp

theorem reverse_map_annotations_eq (rows : List (List String)) :
    reverse_map_annotations rows =
      (rows.tail.map (fun r => (r.getD 1 "", r.getD 0 ""))).reverse := by
  match rows with
  | [] => rfl
  | first :: rest =>
    show rest.foldl (fun m row => (row.getD 1 "", row.getD 0 "") :: m) [] = _
    rw [foldl_cons_reverse]
    simp

theorem label_has_annotations_iff (m : List (String × String)) (s : String) :
    label_has_annotations s m = true ↔ ∃ v, m.lookup s = some v ∧ v ≠ "" := by
  unfold label_has_annotations
  rcases h : m.lookup s with _ | v
  · simp
  · simp [h]

/-- C6 amended: the acceptance test passes iff the file is empty or its
header row is exactly `Term ID,Group name` with every later row of exactly
two columns (an empty file is accepted too, which the original claim's
"if and only if" excludes); a rejected file contributes no `models` field to
any centreline feature; an accepted file yields the reverse map sending each
row's second column to its first (later rows shadowing earlier ones), and a
centreline group whose display name has a non-empty entry there gains that
value as its `models` field. -/
theorem C6_annotation_csv_amended :
    (∀ rows : List (List String), is_annotation_csv_file rows = true ↔
      (rows = [] ∨ (rows.head? = some ["Term ID", "Group name"] ∧
        ∀ r ∈ rows.tail, r.length = 2))) ∧
    (∀ rows : List (List String), reverse_map_annotations rows =
      (rows.tail.map (fun r => (r.getD 1 "", r.getD 0 ""))).reverse) ∧
    (∀ (m : List (String × String)) (s : String),
      label_has_annotations s m = true ↔ ∃ v, m.lookup s = some v ∧ v ≠ "") ∧
    (∀ (pp : List (String × PathVal)) (markers : List Marker) (key : String)
      (pv : PathVal) (mdl : Option String),
      (build_features pp none markers).lookup key =
        some (Feature.centreline pv mdl) → mdl = none) ∧
    (∀ (pp : List (String × PathVal)) (m : List (String × String))
      (markers : List Marker) (key s : String),
      (pp.map Prod.fst).Nodup → is_group_svg_id key = true →
      pp.lookup key = some (.dname s) → (∀ mk ∈ markers, mk.svgId ≠ key) →
      (build_features pp (some m) markers).lookup key =
        some (.centreline (.dname s)
          (if label_has_annotations s m then m.lookup s else none))) :=
  ⟨is_annotation_iff, reverse_map_annotations_eq,
   fun m s => label_has_annotations_iff m s,
   fun pp markers key pv mdl h => build_features_none_no_models pp markers key pv mdl h,
   fun pp m markers key s hnd hkey hpp hmk =>
     build_features_lookup pp (some m) markers key (.dname s) hnd hkey hpp hmk⟩

/-- Witness for C6: the scenario file with header and the row
`UBERON:0001255,ureter` is accepted, and a centreline group labelled
`ureter` gains `models = UBERON:0001255`. -/
theorem C6_annotation_csv_amended_witness :
    (is_annotation_csv_file [["Term ID", "Group name"],
      ["UBERON:0001255", "ureter"]] = true) ∧
    ((build_features [("nerve_feature_1", PathVal.dname "ureter")]
        (some [("ureter", "UBERON:0001255")]) []).lookup "nerve_feature_1" =
      some (Feature.centreline (PathVal.dname "ureter")
        (if label_has_annotations "ureter" [("ureter", "UBERON:0001255")] then
          List.lookup "ureter" [("ureter", "UBERON:0001255")] else none))) :=
  ⟨(C6_annotation_csv_amended.1 _).mpr (Or.inr ⟨rfl, by decide⟩),
   C6_annotation_csv_amended.2.2.2.2 _ _ _ _ _ (by decide) (by decide) (by decide)
     (fun mk hmk => absurd hmk (List.not_mem_nil mk))⟩

/-- C6 counterexample: an annotation CSV with no rows at all has no header
row, yet `_is_annotation_csv_file` accepts it, so acceptance is not
equivalent to the claimed shape check. -/
theorem C6_cex_empty_file_accepted :
    is_annotation_csv_file ([] : List (List String)) = true ∧
    ([] : List (List String)).head? ≠ some ["Term ID", "Group name"] := by
  constructor
  · decide
  · intro h
    cases h

/-! ## Theorems: claims C8 and C5 (markers) -/

theorem msDigits_length_le (m bound w : ℕ) (hm : m ≤ bound)
    (hb : bound < 10 ^ w) (hw : 1 ≤ w) : (msDigits m).length ≤ w := by
  rw [length_msDigits]
  have hlt : m < 10 ^ w := lt_of_le_of_lt hm hb
  by_cases hz : m = 0
  · subst hz
    rw [Nat.log_zero_right]
    omega
  · have : Nat.log 10 m < w := by
      by_contra hc
      push_neg at hc
      have h1 : 10 ^ w ≤ 10 ^ Nat.log 10 m := Nat.pow_le_pow_right (by norm_num) hc
      have h2 : 10 ^ Nat.log 10 m ≤ m := Nat.pow_log_le_self 10 hz
      omega
    omega

/-- C8: for every marker point, a missing name field yields the name
`Unnamed marker k` with `k` its 1-based position, a missing identifier field
yields `UBERON:99` followed by the 5-digit zero-padded random draw from
`[1, 99999]`, and the SVG element identifier is `marker_` followed by the
point's native identifier. -/
theorem C8_marker_defaults (s : MarkerScene) (rand : ℕ → ℕ)
    (hg : s.groupFound = true) (hn : s.nameFieldValid = false)
    (hi : s.idFieldValid = false)
    (hr : ∀ k, 1 ≤ rand k ∧ rand k ≤ 99999) :
    (∀ ip ∈ s.points.enum,
      (⟨"marker_" ++ natStr ip.2.identifier,
        (if s.coordFieldValid then ip.2.coordValues else []).take 2,
        "Unnamed marker " ++ natStr (ip.1 + 1),
        "UBERON:99" ++ rjust (natStr (rand ip.1)) 5 '0'⟩ : Marker) ∈
        calculate_markers s rand) ∧
    (∀ k, (rjust (natStr (rand k)) 5 '0').length = 5 ∧
      (rjust (natStr (rand k)) 5 '0').data = (padDigits 5 (rand k)).map digitChar ∧
      digitsVal (padDigits 5 (rand k)) = rand k) := by
  constructor
  · intro ip hip
    unfold calculate_markers
    rw [hg, if_pos rfl]
    refine List.mem_map.mpr ⟨ip, hip, ?_⟩
    rw [hn, hi]
    simp
  · intro k
    have hlen : (msDigits (rand k)).length ≤ 5 :=
      msDigits_length_le (rand k) 99999 5 (hr k).2 (by norm_num) (by norm_num)
    refine ⟨?_, rjust_natStr_data (rand k) 5, digitsVal_padDigits 5 (rand k)⟩
    show (rjust (natStr (rand k)) 5 '0').data.length = 5
    rw [rjust_natStr_data, List.length_map, padDigits_length _ _ hlen]

/-- Witness for C8: one marker point with both optional fields absent and a
fixed random draw of 7. -/
theorem C8_marker_defaults_witness :
    (⟨false, false, false, true, [⟨3, [1, 2], "x", "y"⟩]⟩ : MarkerScene).groupFound = true ∧
    ((∀ ip ∈ ([⟨3, [1, 2], "x", "y"⟩] : List MarkerPoint).enum,
      (⟨"marker_" ++ natStr ip.2.identifier,
        (if (false : Bool) then ip.2.coordValues else []).take 2,
        "Unnamed marker " ++ natStr (ip.1 + 1),
        "UBERON:99" ++ rjust (natStr ((fun _ : ℕ => 7) ip.1)) 5 '0'⟩ : Marker) ∈
        calculate_markers ⟨false, false, false, true, [⟨3, [1, 2], "x", "y"⟩]⟩ (fun _ : ℕ => 7)) ∧
    (∀ k, (rjust (natStr ((fun _ : ℕ => 7) k)) 5 '0').length = 5 ∧
      (rjust (natStr ((fun _ : ℕ => 7) k)) 5 '0').data =
        (padDigits 5 ((fun _ : ℕ => 7) k)).map digitChar ∧
      digitsVal (padDigits 5 ((fun _ : ℕ => 7) k)) = (fun _ : ℕ => 7) k)) :=
  ⟨rfl, C8_marker_defaults ⟨false, false, false, true, [⟨3, [1, 2], "x", "y"⟩]⟩
    (fun _ : ℕ => 7) rfl rfl rfl (fun k => by show 1 ≤ 7 ∧ 7 ≤ 99999; omega)⟩

theorem foldl_append_all_empty (l : List String) :
    ∀ acc, (∀ x ∈ l, x = "") → l.foldl (· ++ ·) acc = acc := by
  induction l with
  | nil => intro acc _; rfl
  | cons a t ih =>
    intro acc h
    rw [List.foldl_cons, h a (List.mem_cons_self a t),
      ih _ (fun x hx => h x (List.mem_cons_of_mem a hx))]
    simp

theorem join_all_empty (l : List String) (h : ∀ x ∈ l, x = "") :
    String.join l = "" := by
  show l.foldl (· ++ ·) "" = ""
  exact foldl_append_all_empty l "" h

/-- C5 amended: when the designated marker-coordinate field is absent, the
export does not fail; every affected marker has fewer than two coordinate
components, its `<circle>` is dropped by the `except IndexError` guard (a
diagnostic only), and the SVG artifact is still produced without it. -/
theorem C5_missing_coordinates_not_fatal (s : MarkerScene) (rand : ℕ → ℕ)
    (hc : s.coordFieldValid = false) :
    (∀ m ∈ calculate_markers s rand, m.coords = [] ∧ marker_circle m = none) ∧
    write_into_svg_format [] (calculate_markers s rand) =
      some ("<svg width=\"1000\" height=\"1000\" viewBox=\"WWW XXX YYY ZZZ\" xmlns=\"http://www.w3.org/2000/svg\"></svg>") := by
  have hcoords : ∀ m ∈ calculate_markers s rand, m.coords = [] := by
    intro m hm
    by_cases hgf : s.groupFound = true
    · unfold calculate_markers at hm
      rw [if_pos hgf] at hm
      rcases List.mem_map.mp hm with ⟨ip, _, he⟩
      rw [← he]
      show ((if s.coordFieldValid = true then ip.2.coordValues else []).take 2) = []
      rw [hc]
      simp
    · unfold calculate_markers at hm
      rw [if_neg hgf] at hm
      cases hm
  have hdrop : ∀ m ∈ calculate_markers s rand, marker_circle m = none := by
    intro m hm
    unfold marker_circle
    rw [if_neg]
    rw [hcoords m hm]
    simp
  refine ⟨fun m hm => ⟨hcoords m hm, hdrop m hm⟩, ?_⟩
  unfold write_into_svg_format
  rw [List.mapM_nil]
  show some _ = _
  have hjoin : String.join ((calculate_markers s rand).map
      (fun m => (marker_circle m).getD "")) = "" := by
    refine join_all_empty _ ?_
    intro x hx
    rcases List.mem_map.mp hx with ⟨m, hm, he⟩
    rw [← he, hdrop m hm]
    rfl
  rw [hjoin]
  rfl

/-- Witness for C5 amended, at a scene with one marker point and the
coordinate field absent. -/
theorem C5_missing_coordinates_not_fatal_witness :
    (∀ m ∈ calculate_markers ⟨false, true, true, true, [⟨3, [1, 2], "x", "y"⟩]⟩
        (fun _ : ℕ => 7), m.coords = [] ∧ marker_circle m = none) ∧
    write_into_svg_format []
        (calculate_markers ⟨false, true, true, true, [⟨3, [1, 2], "x", "y"⟩]⟩ (fun _ : ℕ => 7)) =
      some ("<svg width=\"1000\" height=\"1000\" viewBox=\"WWW XXX YYY ZZZ\" xmlns=\"http://www.w3.org/2000/svg\"></svg>") :=
  C5_missing_coordinates_not_fatal ⟨false, true, true, true, [⟨3, [1, 2], "x", "y"⟩]⟩
    (fun _ : ℕ => 7) rfl

/-! ## Theorems: `_group_svg_id` and the shape of group identifiers -/

theorem pyReplaceAux_no_head (p : Char) (ps rep : List Char) (fuel : ℕ)
    (str : List Char) (h : p ∉ str) :
    pyReplaceAux (p :: ps) rep fuel str = str := by
  induction fuel generalizing str with
  | zero =>
    match str with
    | [] => rfl
    | c :: cs => rfl
  | succ f ih =>
    match str with
    | [] => rfl
    | c :: cs =>
      have hpc : p ≠ c := fun he => h (he ▸ List.mem_cons_self c cs)
      have hpre : (p :: ps).isPrefixOf (c :: cs) = false := by
        show (p == c && ps.isPrefixOf cs) = false
        rw [beq_eq_false_iff_ne.mpr hpc]
        rfl
      show (if (p :: ps).isPrefixOf (c :: cs) then _ else
        c :: pyReplaceAux (p :: ps) rep f cs) = c :: cs
      rw [hpre]
      show c :: pyReplaceAux (p :: ps) rep f cs = c :: cs
      rw [ih cs (fun hm => h (List.mem_cons_of_mem c hm))]

theorem pyReplaceAux_step (p : Char) (ps rep t : List Char) (fuel : ℕ) :
    pyReplaceAux (p :: ps) rep (fuel + 1) ((p :: ps) ++ t) =
      rep ++ pyReplaceAux (p :: ps) rep fuel t := by
  have hpre : (p :: ps).isPrefixOf ((p :: ps) ++ t) = true :=
    List.isPrefixOf_iff_prefix.mpr (List.prefix_append (p :: ps) t)
  show (if (p :: ps).isPrefixOf ((p :: ps) ++ t) then
      rep ++ pyReplaceAux (p :: ps) rep fuel (((p :: ps) ++ t).drop (p :: ps).length)
    else _) = rep ++ pyReplaceAux (p :: ps) rep fuel t
  rw [hpre, if_pos rfl, List.drop_left]

/-- `_group_svg_id` on `"group_" ++ x` when `x` contains no `g`: the single
occurrence of `"group_"` is replaced. -/
theorem group_svg_id_group_append (x : String) (h : 'g' ∉ x.data) :
    group_svg_id ("group_" ++ x) = "nerve_feature_" ++ x := by
  obtain ⟨xl⟩ := x
  show pyReplace ("group_" ++ ⟨xl⟩) "group_" "nerve_feature_" = "nerve_feature_" ++ ⟨xl⟩
  have hdata : ("group_" ++ (⟨xl⟩ : String)).data = "group_".data ++ xl :=
    String.data_append _ _
  unfold pyReplace
  rw [hdata]
  have hlen : ("group_".data ++ xl).length = (5 + xl.length) + 1 := by
    simp [List.length_append]
    omega
  rw [hlen]
  have hstep := pyReplaceAux_step 'g' "roup_".data "nerve_feature_".data xl (5 + xl.length)
  have hshape : "group_".data = 'g' :: "roup_".data := rfl
  rw [hshape, hstep, pyReplaceAux_no_head 'g' "roup_".data "nerve_feature_".data _ xl h]
  show (⟨"nerve_feature_".data ++ xl⟩ : String) = "nerve_feature_" ++ ⟨xl⟩
  have : ("nerve_feature_" ++ (⟨xl⟩ : String)).data = "nerve_feature_".data ++ xl :=
    String.data_append _ _
  cases hx : "nerve_feature_" ++ (⟨xl⟩ : String)
  rw [hx] at this
  simp at this
  rw [this]
  rfl

theorem digitChar_ne_g : ∀ d < 10, digitChar d ≠ 'g' := by decide

theorem group_number_no_g (i w : ℕ) : 'g' ∉ (group_number i w).data := by
  rw [group_number_data]
  intro hm
  rcases List.mem_map.mp hm with ⟨d, hd, he⟩
  exact digitChar_ne_g d (padDigits_digit_lt _ _ d hd) he

/-- The SVG identifier of a path-group label: `nerve_feature_NNN` (the
`group_` prefix is replaced, not prefixed). -/
theorem group_svg_id_label (i n : ℕ) :
    group_svg_id (group_label i n) =
      "nerve_feature_" ++ group_number i (size_of_digits n) :=
  group_svg_id_group_append (group_number i (size_of_digits n))
    (group_number_no_g i (size_of_digits n))

/-! ## Theorems: structure of the `_analyze_elements` dictionary -/

theorem ne_of_head_ne {s t : String} (h : s.data.head? ≠ t.data.head?) : s ≠ t :=
  fun he => h (by rw [he])

theorem head_group_append (x : String) :
    ("group_" ++ x).data.head? = some 'g' := by
  rw [String.data_append]
  rfl

theorem head_nerve_append (x : String) :
    ("nerve_feature_" ++ x).data.head? = some 'n' := by
  rw [String.data_append]
  rfl

theorem head_marker_append (x : String) :
    ("marker_" ++ x).data.head? = some 'm' := by
  rw [String.data_append]
  rfl

theorem head_ungrouped : ("ungrouped" : String).data.head? = some 'u' := rfl

theorem map_digitChar_inj (l1 l2 : List ℕ) (h1 : ∀ d ∈ l1, d < 10)
    (h2 : ∀ d ∈ l2, d < 10) (h : l1.map digitChar = l2.map digitChar) :
    l1 = l2 := by
  induction l1 generalizing l2 with
  | nil =>
    match l2 with
    | [] => rfl
    | d :: t => cases h
  | cons d1 t1 ih =>
    match l2 with
    | [] => cases h
    | d2 :: t2 =>
      rw [List.map_cons, List.map_cons] at h
      injection h with hh ht
      have hd : d1 = d2 := (digitChar_eq_iff d1 (h1 d1 (List.mem_cons_self _ _))
        d2 (h2 d2 (List.mem_cons_self _ _))).mp hh
      have ht1 : ∀ d ∈ t1, d < 10 := fun d hd2 => h1 d (List.mem_cons_of_mem _ hd2)
      have ht2 : ∀ d ∈ t2, d < 10 := fun d hd2 => h2 d (List.mem_cons_of_mem _ hd2)
      rw [hd, ih t2 ht1 ht2 ht]

theorem group_number_inj (n i j : ℕ)
    (h : group_number i (size_of_digits n) = group_number j (size_of_digits n)) :
    i = j := by
  have hd : (group_number i (size_of_digits n)).data =
      (group_number j (size_of_digits n)).data := by rw [h]
  rw [group_number_data, group_number_data] at hd
  have hp := map_digitChar_inj _ _ (padDigits_digit_lt _ _) (padDigits_digit_lt _ _) hd
  have hv : digitsVal (padDigits (size_of_digits n) (i + 1)) =
      digitsVal (padDigits (size_of_digits n) (j + 1)) := by rw [hp]
  rw [digitsVal_padDigits, digitsVal_padDigits] at hv
  omega

theorem group_label_inj (n i j : ℕ)
    (h : group_label i n = group_label j n) : i = j := by
  refine group_number_inj n i j ?_
  have hd := congrArg String.data h
  rw [group_label, group_label, String.data_append, String.data_append] at hd
  exact String.ext (List.append_cancel_left hd)

theorem nerve_append_inj (a b : String) (h : "nerve_feature_" ++ a = "nerve_feature_" ++ b) :
    a = b := by
  have hd := congrArg String.data h
  rw [String.data_append, String.data_append] at hd
  exact String.ext (List.append_cancel_left hd)

theorem group_svg_id_label_inj (n i j : ℕ)
    (h : group_svg_id (group_label i n) = group_svg_id (group_label j n)) : i = j := by
  rw [group_label, group_label, group_svg_id_group_append _ (group_number_no_g _ _),
    group_svg_id_group_append _ (group_number_no_g _ _)] at h
  exact group_number_inj n i j (nerve_append_inj _ _ h)

theorem label_ne_svg (i j n : ℕ) : group_label i n ≠ group_svg_id (group_label j n) := by
  rw [group_svg_id_label]
  refine ne_of_head_ne ?_
  rw [group_label, head_group_append, head_nerve_append]
  decide

theorem ungrouped_ne_label (i n : ℕ) : ("ungrouped" : String) ≠ group_label i n := by
  refine ne_of_head_ne ?_
  rw [group_label, head_ungrouped, head_group_append]
  decide

theorem ungrouped_ne_svg (i n : ℕ) :
    ("ungrouped" : String) ≠ group_svg_id (group_label i n) := by
  rw [group_svg_id_label]
  refine ne_of_head_ne ?_
  rw [head_ungrouped, head_nerve_append]
  decide

theorem mem_enum_lt {α : Type} {l : List α} {x : ℕ × α} (h : x ∈ l.enum) :
    x.1 < l.length := by
  have h2 := List.mem_enum_iff_getElem?.mp h
  rcases List.getElem?_eq_some.mp h2 with ⟨hlt, _⟩
  exact hlt

theorem enum_mem_of_lt {α : Type} (l : List α) (k : ℕ) (h : k < l.length) :
    (k, l.get ⟨k, h⟩) ∈ l.enum := by
  refine List.mem_enum_iff_getElem?.mpr ?_
  simp

theorem nodup_flatMap_enum {α β : Type} (l : List (ℕ × α)) (f : ℕ × α → List β)
    (hnd : ∀ x ∈ l, (f x).Nodup)
    (hdisj : ∀ x ∈ l, ∀ y ∈ l, x.1 ≠ y.1 → ∀ b ∈ f x, b ∉ f y)
    (hfst : (l.map Prod.fst).Nodup) :
    (l.flatMap f).Nodup := by
  induction l with
  | nil => simp
  | cons x t ih =>
    rw [List.flatMap_cons]
    rw [List.map_cons, List.nodup_cons] at hfst
    refine List.Nodup.append (hnd x (List.mem_cons_self _ _))
      (ih (fun y hy => hnd y (List.mem_cons_of_mem _ hy))
        (fun a ha b hb => hdisj a (List.mem_cons_of_mem _ ha) b (List.mem_cons_of_mem _ hb))
        hfst.2) ?_
    intro b hbx hbt
    rcases List.mem_flatMap.mp hbt with ⟨y, hy, hby⟩
    have hxy : x.1 ≠ y.1 := fun he => hfst.1 (he ▸ List.mem_map.mpr ⟨y, hy, rfl⟩)
    exact hdisj x (List.mem_cons_self _ _) y (List.mem_cons_of_mem _ hy) hxy b hbx hby

theorem init_dict_eq (groups : List MGroup) (w : ℕ) :
    init_dict groups w = ("ungrouped", .pts []) ::
      groups.enum.flatMap (fun kg =>
        if kg.2.name ≠ "marker" then
          [("group_" ++ group_number kg.1 w, PathVal.pts []),
           (group_svg_id ("group_" ++ group_number kg.1 w), PathVal.dname kg.2.name)]
        else []) := by
  unfold init_dict
  congr 1
  have h2 : (fun (acc : List (String × PathVal)) (kg : ℕ × MGroup) =>
      if kg.2.name ≠ "marker" then
        acc ++ [("group_" ++ group_number kg.1 w, PathVal.pts []),
                (group_svg_id ("group_" ++ group_number kg.1 w), PathVal.dname kg.2.name)]
      else acc) = (fun (acc : List (String × PathVal)) (kg : ℕ × MGroup) =>
        acc ++ (if kg.2.name ≠ "marker" then
          [("group_" ++ group_number kg.1 w, PathVal.pts []),
           (group_svg_id ("group_" ++ group_number kg.1 w), PathVal.dname kg.2.name)]
        else [])) := by
    funext acc kg
    split_ifs <;> simp
  rw [h2, foldl_append_bind]
  simp

theorem init_dict_keys (groups : List MGroup) (w : ℕ) :
    (init_dict groups w).map Prod.fst = "ungrouped" ::
      groups.enum.flatMap (fun kg =>
        if kg.2.name ≠ "marker" then
          ["group_" ++ group_number kg.1 w,
           group_svg_id ("group_" ++ group_number kg.1 w)]
        else []) := by
  rw [init_dict_eq, List.map_cons]
  congr 1
  rw [List.map_flatMap]
  congr 1
  funext kg
  split_ifs <;> rfl

theorem init_dict_keys_nodup (groups : List MGroup) :
    ((init_dict groups (size_of_digits groups.length)).map Prod.fst).Nodup := by
  rw [init_dict_keys, List.nodup_cons]
  constructor
  · intro hm
    rcases List.mem_flatMap.mp hm with ⟨kg, _, hb⟩
    split_ifs at hb
    · simp at hb
      rcases hb with h | h
      · exact ungrouped_ne_label kg.1 groups.length h
      · exact ungrouped_ne_svg kg.1 groups.length h
    · cases hb
  · refine nodup_flatMap_enum _ _ ?_ ?_
      (by rw [List.enum_map_fst]; exact List.nodup_range _)
    · intro x _
      split_ifs
      · simp
        exact label_ne_svg x.1 x.1 groups.length
      · simp
    · intro x _ y _ hne b hbx hby
      split_ifs at hbx hby
      · simp at hbx hby
        rcases hbx with h1 | h1 <;> rcases hby with h2 | h2
        · exact hne (group_label_inj groups.length x.1 y.1 (h1.symm.trans h2))
        · exact label_ne_svg x.1 y.1 groups.length (h1.symm.trans h2)
        · exact label_ne_svg y.1 x.1 groups.length (h2.symm.trans h1)
        · exact hne (group_svg_id_label_inj groups.length x.1 y.1 (h1.symm.trans h2))
      · cases hby
      · cases hbx
      · cases hbx

theorem init_dict_mem_svg (groups : List MGroup) (k : ℕ) (hk : k < groups.length)
    (hname : (groups.get ⟨k, hk⟩).name ≠ "marker") :
    (group_svg_id (group_label k groups.length),
      PathVal.dname (groups.get ⟨k, hk⟩).name) ∈
      init_dict groups (size_of_digits groups.length) := by
  rw [init_dict_eq]
  refine List.mem_cons_of_mem _ (List.mem_flatMap.mpr
    ⟨(k, groups.get ⟨k, hk⟩), enum_mem_of_lt groups k hk, ?_⟩)
  rw [if_pos hname]
  simp [group_label]

theorem init_dict_mem_label (groups : List MGroup) (k : ℕ) (hk : k < groups.length)
    (hname : (groups.get ⟨k, hk⟩).name ≠ "marker") :
    (group_label k groups.length, PathVal.pts []) ∈
      init_dict groups (size_of_digits groups.length) := by
  rw [init_dict_eq]
  refine List.mem_cons_of_mem _ (List.mem_flatMap.mpr
    ⟨(k, groups.get ⟨k, hk⟩), enum_mem_of_lt groups k hk, ?_⟩)
  rw [if_pos hname]
  simp [group_label]

theorem init_dict_lookup_svg (groups : List MGroup) (k : ℕ) (hk : k < groups.length)
    (hname : (groups.get ⟨k, hk⟩).name ≠ "marker") :
    (init_dict groups (size_of_digits groups.length)).lookup
        (group_svg_id (group_label k groups.length)) =
      some (PathVal.dname (groups.get ⟨k, hk⟩).name) :=
  lookup_of_mem_nodup (init_dict_keys_nodup groups) (init_dict_mem_svg groups k hk hname)

theorem init_dict_lookup_label (groups : List MGroup) (k : ℕ) (hk : k < groups.length)
    (hname : (groups.get ⟨k, hk⟩).name ≠ "marker") :
    (init_dict groups (size_of_digits groups.length)).lookup
        (group_label k groups.length) = some (PathVal.pts []) :=
  lookup_of_mem_nodup (init_dict_keys_nodup groups) (init_dict_mem_label groups k hk hname)

theorem init_dict_label_not_mem (groups : List MGroup) (m : ℕ) (hm : m < groups.length)
    (hname : (groups.get ⟨m, hm⟩).name = "marker") :
    group_label m groups.length ∉
      (init_dict groups (size_of_digits groups.length)).map Prod.fst := by
  rw [init_dict_keys]
  intro hmem
  rcases List.mem_cons.mp hmem with h | h
  · exact ungrouped_ne_label m groups.length h.symm
  · rcases List.mem_flatMap.mp h with ⟨kg, hkg, hb⟩
    split_ifs at hb with hn
    · simp at hb
      rcases hb with h1 | h1
      · have : m = kg.1 := group_label_inj groups.length m kg.1 h1
        have hget := List.mem_enum_iff_getElem?.mp hkg
        rcases List.getElem?_eq_some.mp hget with ⟨hlt, hgv⟩
        apply hn
        rw [← hgv]
        have : groups[kg.1] = groups.get ⟨m, hm⟩ := by
          congr 1
          omega
        rw [this, hname]
      · exact label_ne_svg m kg.1 groups.length h1
    · cases hb

theorem append_at_keys (d : List (String × PathVal)) (key : String) (sp : Sample)
    (d' : List (String × PathVal)) (h : append_at d key sp = some d') :
    d'.map Prod.fst = d.map Prod.fst := by
  induction d generalizing d' with
  | nil => cases h
  | cons kv t ih =>
    match kv, h with
    | (k, v), h =>
      simp only [append_at] at h
      split_ifs at h with hk
      · match v, h with
        | .pts l, h =>
          injection h with h2
          rw [← h2]
          simp
      · rcases Option.map_eq_some'.mp h with ⟨r, hr, he⟩
        rw [← he, List.map_cons, List.map_cons, ih r hr]

theorem append_at_lookup_ne (d : List (String × PathVal)) (key : String) (sp : Sample)
    (d' : List (String × PathVal)) (key2 : String) (h : append_at d key sp = some d')
    (hne : key2 ≠ key) : d'.lookup key2 = d.lookup key2 := by
  induction d generalizing d' with
  | nil => cases h
  | cons kv t ih =>
    match kv, h with
    | (k, v), h =>
      simp only [append_at] at h
      split_ifs at h with hk
      · match v, h with
        | .pts l, h =>
          injection h with h2
          rw [← h2, lookup_cons_ite, lookup_cons_ite]
          have hne2 : (key2 == k) = false := by
            refine beq_eq_false_iff_ne.mpr ?_
            rw [hk]
            exact hne
          rw [hne2]
          simp
      · rcases Option.map_eq_some'.mp h with ⟨r, hr, he⟩
        rw [← he, lookup_cons_ite, lookup_cons_ite]
        by_cases hkk : (key2 == k) = true
        · rw [if_pos hkk, if_pos hkk]
        · rw [if_neg hkk, if_neg hkk]
          exact ih r hr

/-- A fold of the `assign_element` shape starting from a dead state stays
dead. -/
theorem assign_fold_none (gl : List (ℕ × MGroup)) (w : ℕ) (eidx : ℕ) (sp : Sample)
    (flag : Bool) :
    (gl.foldl (fun (st : Option (List (String × PathVal)) × Bool) kg =>
      if kg.2.contains eidx then
        (st.1.bind (fun d => append_at d ("group_" ++ group_number kg.1 w) sp), true)
      else st) (none, flag)).1 = none := by
  induction gl generalizing flag with
  | nil => rfl
  | cons kg t ih =>
    rw [List.foldl_cons]
    split_ifs
    · exact ih true
    · exact ih flag

/-- The membership fold of `assign_element` preserves keys and lookups at
keys that are neither `"ungrouped"` nor any group label. -/
theorem assign_fold_inv (gl : List (ℕ × MGroup)) (w : ℕ) (eidx : ℕ) (sp : Sample)
    (key2 : String) (hk2 : ∀ k, key2 ≠ "group_" ++ group_number k w) :
    ∀ (db : List (String × PathVal)) (flag : Bool) (d' : List (String × PathVal)),
      (gl.foldl (fun (st : Option (List (String × PathVal)) × Bool) kg =>
        if kg.2.contains eidx then
          (st.1.bind (fun d => append_at d ("group_" ++ group_number kg.1 w) sp), true)
        else st) (some db, flag)).1 = some d' →
      d'.map Prod.fst = db.map Prod.fst ∧ d'.lookup key2 = db.lookup key2 := by
  induction gl with
  | nil =>
    intro db flag d' h
    injection h with h2
    rw [← h2]
    exact ⟨rfl, rfl⟩
  | cons kg t ih =>
    intro db flag d' h
    rw [List.foldl_cons] at h
    by_cases hc : kg.2.contains eidx = true
    · rw [if_pos hc] at h
      rcases ha : append_at db ("group_" ++ group_number kg.1 w) sp with _ | db2
      · rw [show (Option.some db).bind
            (fun d => append_at d ("group_" ++ group_number kg.1 w) sp) = none from ha] at h
        rw [assign_fold_none t w eidx sp true] at h
        cases h
      · rw [show (Option.some db).bind
            (fun d => append_at d ("group_" ++ group_number kg.1 w) sp) = some db2 from ha] at h
        rcases ih db2 true d' h with ⟨hkeys, hlk⟩
        exact ⟨hkeys.trans (append_at_keys _ _ _ _ ha),
          hlk.trans (append_at_lookup_ne _ _ _ _ _ ha (hk2 kg.1))⟩
    · rw [if_neg hc] at h
      exact ih db flag d' h

theorem assign_element_inv (groups : List MGroup) (w : ℕ) (eidx : ℕ) (sp : Sample)
    (d d' : List (String × PathVal)) (h : assign_element groups w eidx sp d = some d')
    (key2 : String) (hk2u : key2 ≠ "ungrouped")
    (hk2 : ∀ k, key2 ≠ "group_" ++ group_number k w) :
    d'.map Prod.fst = d.map Prod.fst ∧ d'.lookup key2 = d.lookup key2 := by
  unfold assign_element at h
  set st := groups.enum.foldl (fun (st : Option (List (String × PathVal)) × Bool) kg =>
    if kg.2.contains eidx then
      (st.1.bind (fun d => append_at d ("group_" ++ group_number kg.1 w) sp), true)
    else st) (some d, false) with hst
  by_cases hflag : st.2 = true
  · rw [if_pos hflag] at h
    exact assign_fold_inv groups.enum w eidx sp key2 hk2 d false d' h
  · rw [if_neg hflag] at h
    rcases h1 : st.1 with _ | dmid
    · rw [h1] at h
      cases h
    · rw [h1] at h
      rcases hb : append_at dmid "ungrouped" sp with _ | d2
      · rw [show Option.bind (some dmid) (fun dd => append_at dd "ungrouped" sp) = none from hb] at h
        cases h
      · rw [show Option.bind (some dmid) (fun dd => append_at dd "ungrouped" sp) = some d2 from hb] at h
        injection h with h2
        rcases assign_fold_inv groups.enum w eidx sp key2 hk2 d false dmid h1 with ⟨hkeys, hlk⟩
        rw [← h2]
        exact ⟨(append_at_keys _ _ _ _ hb).trans hkeys,
          (append_at_lookup_ne _ _ _ _ _ hb hk2u).trans hlk⟩

/-- The element loop of `_analyze_elements` preserves keys and the lookups
of keys which are neither `"ungrouped"` nor group labels. -/
theorem analyze_elements_inv (groups : List MGroup) (elems : List MElem)
    (d : List (String × PathVal))
    (h : analyze_elements groups elems = some d) (hne : elems.length ≠ 0)
    (key2 : String) (hk2u : key2 ≠ "ungrouped")
    (hk2 : ∀ k, key2 ≠ "group_" ++ group_number k (size_of_digits groups.length)) :
    d.map Prod.fst = (init_dict groups (size_of_digits groups.length)).map Prod.fst ∧
    d.lookup key2 = (init_dict groups (size_of_digits groups.length)).lookup key2 := by
  unfold analyze_elements at h
  rw [if_neg hne] at h
  set w := size_of_digits groups.length with hw
  have main : ∀ (le : List (ℕ × MElem)) (d0 : List (String × PathVal)),
      le.foldl (fun st ie =>
        st.bind (fun dd =>
          match line_path_points ie.2 with
          | some sp => assign_element groups w ie.1 sp dd
          | none => some dd)) (some d0) = some d →
      d.map Prod.fst = d0.map Prod.fst ∧ d.lookup key2 = d0.lookup key2 := by
    intro le
    induction le with
    | nil =>
      intro d0 h0
      injection h0 with h2
      rw [h2]
      exact ⟨rfl, rfl⟩
    | cons ie t ih =>
      intro d0 h0
      rw [List.foldl_cons] at h0
      rcases hlp : line_path_points ie.2 with _ | sp
      · rw [show (Option.some d0).bind (fun dd =>
            match line_path_points ie.2 with
            | some sp => assign_element groups w ie.1 sp dd
            | none => some dd) = some d0 by rw [hlp]; rfl] at h0
        exact ih d0 h0
      · rcases ha : assign_element groups w ie.1 sp d0 with _ | d1
        · rw [show (Option.some d0).bind (fun dd =>
              match line_path_points ie.2 with
              | some sp => assign_element groups w ie.1 sp dd
              | none => some dd) = none by rw [hlp]; exact ha] at h0
          have : ∀ (l : List (ℕ × MElem)), l.foldl (fun st ie =>
              st.bind (fun dd =>
                match line_path_points ie.2 with
                | some sp => assign_element groups w ie.1 sp dd
                | none => some dd)) none = none := by
            intro l
            induction l with
            | nil => rfl
            | cons x t2 ih2 => rw [List.foldl_cons]; exact ih2
          rw [this t] at h0
          cases h0
        · rw [show (Option.some d0).bind (fun dd =>
              match line_path_points ie.2 with
              | some sp => assign_element groups w ie.1 sp dd
              | none => some dd) = some d1 by rw [hlp]; exact ha] at h0
          rcases ih d1 h0 with ⟨hkeys, hlk⟩
          rcases assign_element_inv groups w ie.1 sp d0 d1 ha key2 hk2u hk2 with ⟨hk, hl⟩
          exact ⟨hkeys.trans hk, hlk.trans hl⟩
  exact main elems.enum (init_dict groups w) h

theorem is_group_svg_id_label (k n : ℕ) :
    is_group_svg_id (group_svg_id (group_label k n)) = true := by
  rw [group_svg_id_label]
  unfold is_group_svg_id
  rw [String.data_append]
  exact List.isPrefixOf_iff_prefix.mpr (List.prefix_append _ _)

theorem lookup_eq_none_of_all_ne {σ τ : Type} [BEq σ] [LawfulBEq σ]
    (l : List (σ × τ)) (k : σ) (h : ∀ kv ∈ l, kv.1 ≠ k) : l.lookup k = none := by
  induction l with
  | nil => rfl
  | cons kv t ih =>
    rw [lookup_cons_ite]
    have hne : (k == kv.1) = false :=
      beq_eq_false_iff_ne.mpr (fun he => h kv (List.mem_cons_self _ _) he.symm)
    rw [hne]
    simp only [Bool.false_eq_true, if_false]
    exact ih (fun kv2 hkv2 => h kv2 (List.mem_cons_of_mem _ hkv2))

theorem nodup_keys_val_unique {σ τ : Type} [BEq σ] [LawfulBEq σ]
    {l : List (σ × τ)} (hnd : (l.map Prod.fst).Nodup) {k : σ} {v1 v2 : τ}
    (h1 : (k, v1) ∈ l) (h2 : (k, v2) ∈ l) : v1 = v2 := by
  exact Option.some_injective _
    ((lookup_of_mem_nodup hnd h1).symm.trans (lookup_of_mem_nodup hnd h2))

theorem calculate_bezier_control_points_eq (pd : List (String × PathVal)) :
    calculate_bezier_control_points pd = pd.flatMap (fun kv =>
      match kv.2 with
      | .pts [] => []
      | .pts (c :: cs) =>
        [(kv.1, (c :: cs).map (fun cp => calculate_bezier_curve cp.1 cp.2))]
      | .dname _ => []) := by
  unfold calculate_bezier_control_points
  have h2 : (fun (bez : List (String × List Seg)) (kv : String × PathVal) =>
      match kv.2 with
      | .pts [] => bez
      | .pts (c :: cs) =>
        bez ++ [(kv.1, (c :: cs).map (fun cp => calculate_bezier_curve cp.1 cp.2))]
      | .dname _ => bez) = (fun (bez : List (String × List Seg)) (kv : String × PathVal) =>
        bez ++ (match kv.2 with
        | .pts [] => []
        | .pts (c :: cs) =>
          [(kv.1, (c :: cs).map (fun cp => calculate_bezier_curve cp.1 cp.2))]
        | .dname _ => [])) := by
    funext bez kv
    rcases kv with ⟨k, v⟩
    match v with
    | .pts [] => simp
    | .pts (c :: cs) => rfl
    | .dname s2 => simp
  rw [h2, foldl_append_bind]
  simp

/-- A group whose sample list is empty contributes no entry to the Bézier
dictionary. -/
theorem bezier_lookup_none (d : List (String × PathVal)) (lab : String)
    (hnd : (d.map Prod.fst).Nodup) (hl : d.lookup lab = some (.pts [])) :
    (calculate_bezier_control_points d).lookup lab = none := by
  rw [calculate_bezier_control_points_eq]
  refine lookup_eq_none_of_all_ne _ _ ?_
  intro kv hkv
  rcases List.mem_flatMap.mp hkv with ⟨kv0, hkv0, hb⟩
  rcases hpv : kv0.2 with l | s2
  · rw [hpv] at hb
    match l, hb with
    | c :: cs, hb =>
      simp at hb
      intro hke
      have hk0 : kv0.1 = lab := by
        rw [← hke, hb]
      have hmem0 : (lab, PathVal.pts (c :: cs)) ∈ d := by
        have : kv0 = (lab, PathVal.pts (c :: cs)) := by
          rcases kv0 with ⟨a, b⟩
          simp at hpv hk0 ⊢
          exact ⟨hk0, hpv⟩
        rw [← this]
        exact hkv0
      have hmem1 : (lab, PathVal.pts []) ∈ d := lookup_mem hl
      have := nodup_keys_val_unique hnd hmem1 hmem0
      cases this
  · rw [hpv] at hb
    cases hb

theorem calculate_markers_svgId_head (s : MarkerScene) (rand : ℕ → ℕ) :
    ∀ mk ∈ calculate_markers s rand, mk.svgId.data.head? = some 'm' := by
  intro mk hmk
  unfold calculate_markers at hmk
  split_ifs at hmk
  all_goals
    first
    | exact absurd hmk (List.not_mem_nil _)
    | (rcases List.mem_map.mp hmk with ⟨ip, hip, he⟩
       rw [← he]
       exact head_marker_append _)

theorem marker_svgId_ne_svg (s : MarkerScene) (rand : ℕ → ℕ) (k n : ℕ) :
    ∀ mk ∈ calculate_markers s rand, mk.svgId ≠ group_svg_id (group_label k n) := by
  intro mk hmk
  refine ne_of_head_ne ?_
  rw [calculate_markers_svgId_head s rand mk hmk, group_svg_id_label, head_nerve_append]
  decide

/-! ## Theorems: claims C2, C9 and C10 -/

/-- C2 counterexample: `_group_svg_id` replaces `group_` by
`nerve_feature_`, so for a scene with a single group `vagus` the SVG element
identifier is `nerve_feature_1`, not `nerve_feature_group_1` as the claim
states; the sampler's dictionary holds the key `nerve_feature_1`. -/
theorem C2_cex_svg_id_shape :
    group_svg_id (group_label 0 1) = "nerve_feature_1" ∧
    group_svg_id (group_label 0 1) ≠ "nerve_feature_group_1" ∧
    (analyze_elements [⟨"vagus", fun _ => false⟩]
        [⟨some [0, 0, 0], some [1, 0, 0], some [1, 0, 0], some [1, 0, 0]⟩]).map
      (List.map Prod.fst) = some ["ungrouped", "group_1", "nerve_feature_1"] := by
  refine ⟨by decide, by decide, by decide⟩

/-- C2 amended: for every named group at position `k` (not named `marker`),
its SVG element identifier is `nerve_feature_NNN` (the `group_` prefix of
the positional label replaced by `nerve_feature_`, with `NNN` the zero-padded
1-based position), and the sampler's output dictionary maps that identifier
back to the group's display name. -/
theorem C2_svg_id_amended (groups : List MGroup) (elems : List MElem)
    (d : List (String × PathVal)) (k : ℕ) (hk : k < groups.length)
    (hname : (groups.get ⟨k, hk⟩).name ≠ "marker") (hne : elems.length ≠ 0)
    (h : analyze_elements groups elems = some d) :
    group_svg_id (group_label k groups.length) =
      "nerve_feature_" ++ group_number k (size_of_digits groups.length) ∧
    d.lookup (group_svg_id (group_label k groups.length)) =
      some (PathVal.dname (groups.get ⟨k, hk⟩).name) := by
  refine ⟨group_svg_id_label k groups.length, ?_⟩
  have hinv := analyze_elements_inv groups elems d h hne
    (group_svg_id (group_label k groups.length))
    (ungrouped_ne_svg k groups.length).symm
    (fun k2 => (label_ne_svg k2 k groups.length).symm)
  rw [hinv.2, init_dict_lookup_svg groups k hk hname]

/-- Witness for C2 amended at a one-group scene. -/
theorem C2_svg_id_amended_witness :
    0 < ([⟨"vagus", fun _ => false⟩] : List MGroup).length ∧
    (group_svg_id (group_label 0 1) =
      "nerve_feature_" ++ group_number 0 (size_of_digits 1) ∧
    List.lookup (group_svg_id (group_label 0 1))
        [("ungrouped", PathVal.pts [(([0, 0, 0], [1, 0, 0]), ([1, 0, 0], [1, 0, 0]))]),
         ("group_1", PathVal.pts []),
         ("nerve_feature_1", PathVal.dname "vagus")] =
      some (PathVal.dname "vagus")) :=
  ⟨by decide,
   C2_svg_id_amended [⟨"vagus", fun _ => false⟩]
     [⟨some [0, 0, 0], some [1, 0, 0], some [1, 0, 0], some [1, 0, 0]⟩]
     [("ungrouped", PathVal.pts [(([0, 0, 0], [1, 0, 0]), ([1, 0, 0], [1, 0, 0]))]),
      ("group_1", PathVal.pts []),
      ("nerve_feature_1", PathVal.dname "vagus")]
     0 (by decide) (by decide) (by decide) (by decide)⟩

/-- C9: a declared group whose sampled segment list is empty gets no entry
in the Bézier dictionary (hence no `<path>` element is written for it), yet
the features object still holds a centreline entry keyed by its SVG element
identifier carrying the display name as its label. -/
theorem C9_empty_group_feature (groups : List MGroup) (elems : List MElem)
    (d : List (String × PathVal)) (k : ℕ) (hk : k < groups.length)
    (hname : (groups.get ⟨k, hk⟩).name ≠ "marker") (hne : elems.length ≠ 0)
    (h : analyze_elements groups elems = some d)
    (hempty : d.lookup (group_label k groups.length) = some (.pts []))
    (reversed_map : Option (List (String × String)))
    (s : MarkerScene) (rand : ℕ → ℕ) :
    (calculate_bezier_control_points d).lookup (group_label k groups.length) = none ∧
    (build_features d reversed_map (calculate_markers s rand)).lookup
        (group_svg_id (group_label k groups.length)) =
      some (centreline_feature reversed_map
        (PathVal.dname (groups.get ⟨k, hk⟩).name)) := by
  have hinv := analyze_elements_inv groups elems d h hne
    (group_svg_id (group_label k groups.length))
    (ungrouped_ne_svg k groups.length).symm
    (fun k2 => (label_ne_svg k2 k groups.length).symm)
  have hnd : (d.map Prod.fst).Nodup := by
    rw [hinv.1]
    exact init_dict_keys_nodup groups
  constructor
  · exact bezier_lookup_none d _ hnd hempty
  · refine build_features_lookup d reversed_map _ _ _ hnd
      (is_group_svg_id_label k groups.length) ?_
      (marker_svgId_ne_svg s rand k groups.length)
    rw [hinv.2, init_dict_lookup_svg groups k hk hname]

/-- Witness for C9 at a one-group scene whose element lies in no group. -/
theorem C9_empty_group_feature_witness :
    0 < ([⟨"vagus", fun _ => false⟩] : List MGroup).length ∧
    ((calculate_bezier_control_points
        [("ungrouped", PathVal.pts [(([0, 0, 0], [1, 0, 0]), ([1, 0, 0], [1, 0, 0]))]),
         ("group_1", PathVal.pts []),
         ("nerve_feature_1", PathVal.dname "vagus")]).lookup (group_label 0 1) = none ∧
    (build_features
        [("ungrouped", PathVal.pts [(([0, 0, 0], [1, 0, 0]), ([1, 0, 0], [1, 0, 0]))]),
         ("group_1", PathVal.pts []),
         ("nerve_feature_1", PathVal.dname "vagus")] none
        (calculate_markers ⟨true, true, true, false, []⟩ (fun _ : ℕ => 1))).lookup
        (group_svg_id (group_label 0 1)) =
      some (centreline_feature none (PathVal.dname "vagus"))) :=
  ⟨by decide,
   C9_empty_group_feature [⟨"vagus", fun _ => false⟩]
     [⟨some [0, 0, 0], some [1, 0, 0], some [1, 0, 0], some [1, 0, 0]⟩]
     [("ungrouped", PathVal.pts [(([0, 0, 0], [1, 0, 0]), ([1, 0, 0], [1, 0, 0]))]),
      ("group_1", PathVal.pts []),
      ("nerve_feature_1", PathVal.dname "vagus")]
     0 (by decide) (by decide) (by decide) (by decide) (by decide) none
     ⟨true, true, true, false, []⟩ (fun _ : ℕ => 1)⟩

/-- C10: a group named `marker` receives no path-group label, yet its
positional index is consumed: every other group's label number is its
1-based position in the full group list (including the marker group), so the
emitted numbers skip the marker group's number. -/
theorem C10_marker_group_consumes_index (groups : List MGroup) (elems : List MElem)
    (d : List (String × PathVal)) (m : ℕ) (hm : m < groups.length)
    (hmarker : (groups.get ⟨m, hm⟩).name = "marker") (hne : elems.length ≠ 0)
    (h : analyze_elements groups elems = some d) :
    group_label m groups.length ∉ d.map Prod.fst ∧
    ∀ k, ∀ hk : k < groups.length, (groups.get ⟨k, hk⟩).name ≠ "marker" →
      group_label k groups.length ∈ d.map Prod.fst ∧
      digitsVal (padDigits (size_of_digits groups.length) (k + 1)) = k + 1 := by
  have hinv := analyze_elements_inv groups elems d h hne "x"
    (by decide)
    (fun k2 => ne_of_head_ne (by rw [head_group_append]; decide))
  constructor
  · rw [hinv.1]
    exact init_dict_label_not_mem groups m hm hmarker
  · intro k hk hkname
    refine ⟨?_, digitsVal_padDigits _ _⟩
    rw [hinv.1]
    exact List.mem_map.mpr ⟨(group_label k groups.length, PathVal.pts []),
      init_dict_mem_label groups k hk hkname, rfl⟩

/-- Witness for C10: the group list `[marker, vagus]`; the marker group's
label `group_1` is absent and the second group is labelled `group_2`. -/
theorem C10_marker_group_consumes_index_witness :
    0 < ([⟨"marker", fun _ => false⟩, ⟨"vagus", fun _ => false⟩] : List MGroup).length ∧
    (group_label 0 2 ∉
      (([("ungrouped", PathVal.pts [(([0, 0, 0], [1, 0, 0]), ([1, 0, 0], [1, 0, 0]))]),
        ("group_2", PathVal.pts []),
        ("nerve_feature_2", PathVal.dname "vagus")] : List (String × PathVal)).map Prod.fst) ∧
    ∀ k, ∀ hk : k < ([⟨"marker", fun _ => false⟩, ⟨"vagus", fun _ => false⟩] : List MGroup).length,
      (([⟨"marker", fun _ => false⟩, ⟨"vagus", fun _ => false⟩] : List MGroup).get ⟨k, hk⟩).name ≠ "marker" →
      group_label k 2 ∈
        (([("ungrouped", PathVal.pts [(([0, 0, 0], [1, 0, 0]), ([1, 0, 0], [1, 0, 0]))]),
          ("group_2", PathVal.pts []),
          ("nerve_feature_2", PathVal.dname "vagus")] : List (String × PathVal)).map Prod.fst) ∧
      digitsVal (padDigits (size_of_digits 2) (k + 1)) = k + 1) :=
  ⟨by decide,
   C10_marker_group_consumes_index
     [⟨"marker", fun _ => false⟩, ⟨"vagus", fun _ => false⟩]
     [⟨some [0, 0, 0], some [1, 0, 0], some [1, 0, 0], some [1, 0, 0]⟩]
     [("ungrouped", PathVal.pts [(([0, 0, 0], [1, 0, 0]), ([1, 0, 0], [1, 0, 0]))]),
      ("group_2", PathVal.pts []),
      ("nerve_feature_2", PathVal.dname "vagus")]
     0 (by decide) (by decide) (by decide) (by decide)⟩

/-- C5 counterexample: a scene whose marker group holds one point while the
marker-coordinate field is absent still yields an SVG artifact; the marker
list is non-empty, no error is surfaced, and the artifact simply lacks the
marker's circle — the export does not fail as the claim states. -/
theorem C5_cex_export_succeeds_without_field :
    calculate_markers ⟨false, true, true, true, [⟨3, [1, 2], "x", "y"⟩]⟩ (fun _ : ℕ => 7) ≠ [] ∧
    write_into_svg_format []
        (calculate_markers ⟨false, true, true, true, [⟨3, [1, 2], "x", "y"⟩]⟩ (fun _ : ℕ => 7)) =
      some ("<svg width=\"1000\" height=\"1000\" viewBox=\"WWW XXX YYY ZZZ\" xmlns=\"http://www.w3.org/2000/svg\"></svg>") := by
  constructor
  · decide
  · decide

/-! ## Theorems: claim C1 (the path stitcher) -/

theorem getD_set_self (l : List (Option ℕ)) (i : ℕ) (v : Option ℕ) (h : i < l.length) :
    (l.set i v).getD i none = v := by
  rw [List.getD_eq_getElem?_getD, List.getElem?_set]
  simp [h]

theorem getD_set_ne (l : List (Option ℕ)) (i x : ℕ) (v : Option ℕ) (h : i ≠ x) :
    (l.set i v).getD x none = l.getD x none := by
  rw [List.getD_eq_getElem?_getD, List.getElem?_set, if_neg h, ← List.getD_eq_getElem?_getD]

theorem getD_replicate (n x : ℕ) :
    (List.replicate n (none : Option ℕ)).getD x none = none := by
  rw [List.getD_eq_getElem?_getD, List.getElem?_replicate]
  split <;> rfl

theorem getD_some_lt (l : List (Option ℕ)) (x j : ℕ) (h : l.getD x none = some j) :
    x < l.length := by
  by_contra hx
  rw [List.getD_eq_getElem?_getD, List.getElem?_eq_none (le_of_not_lt hx)] at h
  cases h

theorem cminAux_of_none (pred : ℕ → Option ℕ) (f x : ℕ) (h : pred x = none) :
    cminAux pred f x = x := by
  cases f with
  | zero => rfl
  | succ g => unfold cminAux; rw [h]

theorem cminAux_of_some (pred : ℕ → Option ℕ) (f x k : ℕ) (h : pred x = some k) :
    cminAux pred (f + 1) x = cminAux pred f k := by
  show (match pred x with | none => x | some k => cminAux pred f k) = cminAux pred f k
  rw [h]

/-- With a rank function that strictly decreases along `pred`, the chase is
insensitive to the fuel once it is at least the rank of the start point. -/
theorem cminAux_congr_fuel (pred : ℕ → Option ℕ) (ρ : ℕ → ℕ)
    (hdec : ∀ x k, pred x = some k → ρ k < ρ x) :
    ∀ f1 f2 x, ρ x ≤ f1 → ρ x ≤ f2 → cminAux pred f1 x = cminAux pred f2 x := by
  intro f1
  induction f1 with
  | zero =>
    intro f2 x h1 _
    have hnone : pred x = none := by
      cases hp : pred x with
      | none => rfl
      | some k => exact absurd (hdec x k hp) (by omega)
    rw [cminAux_of_none pred 0 x hnone, cminAux_of_none pred f2 x hnone]
  | succ g ih =>
    intro f2 x h1 h2
    cases hp : pred x with
    | none => rw [cminAux_of_none _ _ _ hp, cminAux_of_none _ _ _ hp]
    | some k =>
      have hk := hdec x k hp
      cases f2 with
      | zero => exact absurd hk (by omega)
      | succ g2 =>
        rw [cminAux_of_some _ _ _ _ hp, cminAux_of_some _ _ _ _ hp]
        exact ih g2 k (by omega) (by omega)

/-- The chase computes any abstract function that is fixed on rootless points
and invariant along the pointers. -/
theorem cminAux_eq_of (pred : ℕ → Option ℕ) (ρ : ℕ → ℕ) (g : ℕ → ℕ)
    (hdec : ∀ x k, pred x = some k → ρ k < ρ x)
    (hg0 : ∀ x, pred x = none → g x = x)
    (hg1 : ∀ x k, pred x = some k → g x = g k) :
    ∀ f x, ρ x ≤ f → cminAux pred f x = g x := by
  intro f
  induction f with
  | zero =>
    intro x h1
    have hnone : pred x = none := by
      cases hp : pred x with
      | none => rfl
      | some k => exact absurd (hdec x k hp) (by omega)
    rw [cminAux_of_none _ _ _ hnone, hg0 x hnone]
  | succ g2 ih =>
    intro x h1
    cases hp : pred x with
    | none => rw [cminAux_of_none _ _ _ hp, hg0 x hp]
    | some k =>
      rw [cminAux_of_some _ _ _ _ hp, ih k (by have := hdec x k hp; omega), hg1 x k hp]

theorem cminAux_prop (pred : ℕ → Option ℕ) (P : ℕ → Prop)
    (hstep : ∀ x k, pred x = some k → P x → P k) :
    ∀ f x, P x → P (cminAux pred f x) := by
  intro f
  induction f with
  | zero => intro x hx; exact hx
  | succ g ih =>
    intro x hx
    cases hp : pred x with
    | none => rw [cminAux_of_none _ _ _ hp]; exact hx
    | some k => rw [cminAux_of_some _ _ _ _ hp]; exact ih k (hstep x k hp hx)

theorem cminAux_pred_none (pred : ℕ → Option ℕ) (ρ : ℕ → ℕ)
    (hdec : ∀ x k, pred x = some k → ρ k < ρ x) :
    ∀ f x, ρ x ≤ f → pred (cminAux pred f x) = none := by
  intro f
  induction f with
  | zero =>
    intro x h1
    cases hp : pred x with
    | none => rw [cminAux_of_none _ _ _ hp]; exact hp
    | some k => exact absurd (hdec x k hp) (by omega)
  | succ g ih =>
    intro x h1
    cases hp : pred x with
    | none => rw [cminAux_of_none _ _ _ hp]; exact hp
    | some k =>
      rw [cminAux_of_some _ _ _ _ hp]
      exact ih k (by have := hdec x k hp; omega)

/-- A successor returned by `begin_hash` is a valid segment index. -/
theorem succ_index_lt (curve : List Seg) (k m : ℕ) (h : succ_index curve k = some m) :
    m < curve.length := by
  have hmem := lookup_mem h
  unfold begin_hash at hmem
  rw [List.mem_reverse] at hmem
  rcases List.mem_map.mp hmem with ⟨i, hi, he⟩
  have h2 : i = m := congrArg Prod.snd he
  rw [← h2]
  exact List.mem_range.mp hi

theorem pred_at_some_elim (curve : List Seg) (t x k : ℕ) (h : pred_at curve t x = some k) :
    k < t ∧ succ_index curve k = some x := by
  unfold pred_at at h
  refine ⟨List.mem_range.mp (List.mem_of_find?_eq_some h), ?_⟩
  have h2 := List.find?_some h
  simp only [beq_iff_eq] at h2
  exact h2

theorem pred_at_dec (curve : List Seg) (ρ : ℕ → ℕ) (t : ℕ) (ht : t ≤ curve.length)
    (hrank : ∀ i < curve.length, ∀ m, succ_index curve i = some m → ρ i < ρ m) :
    ∀ x k, pred_at curve t x = some k → ρ k < ρ x := by
  intro x k h
  rcases pred_at_some_elim curve t x k h with ⟨hk, hs⟩
  exact hrank k (by omega) x hs

theorem pred_at_ge (curve : List Seg) (t x : ℕ) (hx : curve.length ≤ x) :
    pred_at curve t x = none := by
  unfold pred_at
  rw [List.find?_eq_none]
  intro k _ hkx
  have h2 : succ_index curve k = some x := eq_of_beq hkx
  exact absurd (succ_index_lt curve k x h2) (by omega)

theorem pred_at_succ_of_none (curve : List Seg) (t x : ℕ)
    (h : succ_index curve t = none) :
    pred_at curve (t + 1) x = pred_at curve t x := by
  unfold pred_at
  rw [List.range_succ, List.find?_append]
  have h2 : List.find? (fun k => succ_index curve k == some x) [t] = none := by
    simp [List.find?_cons, h]
  rw [h2, Option.or_none]

/-- If `t` has no successor among the first `t` segments mapping to `m`, the
predecessor of `m` after `t + 1` steps is `t` itself (uniqueness of the
in-edge is supplied by `hinj`). -/
theorem pred_at_succ_self (curve : List Seg) (t m : ℕ) (ht : t < curve.length)
    (hσ : succ_index curve t = some m)
    (hinj : ∀ i < curve.length, ∀ j < curve.length, ∀ m2,
      succ_index curve i = some m2 → succ_index curve j = some m2 → i = j) :
    pred_at curve (t + 1) m = some t := by
  unfold pred_at
  rw [List.range_succ, List.find?_append]
  have h1 : List.find? (fun k => succ_index curve k == some m) (List.range t) = none := by
    rw [List.find?_eq_none]
    intro k hk hkx
    have h2 : succ_index curve k = some m := eq_of_beq hkx
    have hkt : k < t := List.mem_range.mp hk
    have h3 := hinj k (by omega) t ht m h2 hσ
    omega
  rw [h1, Option.none_or]
  simp [List.find?_cons, hσ]

theorem pred_at_succ_of_ne (curve : List Seg) (t x m : ℕ)
    (hσ : succ_index curve t = some m) (hx : x ≠ m) :
    pred_at curve (t + 1) x = pred_at curve t x := by
  unfold pred_at
  rw [List.range_succ, List.find?_append]
  have h3 : ((some m : Option ℕ) == some x) = false := by
    rw [beq_eq_false_iff_ne]
    intro he
    injection he with he2
    exact hx he2.symm
  have h2 : List.find? (fun k => succ_index curve k == some x) [t] = none := by
    simp only [List.find?_cons, hσ, h3]
    rfl
  rw [h2, Option.or_none]

/-- Before any union has an in-edge for `m`, segment `m` has no predecessor:
any candidate would share its successor `m` with `t`, contradicting
injectivity. -/
theorem pred_at_lt_none (curve : List Seg) (t m : ℕ) (ht : t < curve.length)
    (hσ : succ_index curve t = some m)
    (hinj : ∀ i < curve.length, ∀ j < curve.length, ∀ m2,
      succ_index curve i = some m2 → succ_index curve j = some m2 → i = j) :
    pred_at curve t m = none := by
  unfold pred_at
  rw [List.find?_eq_none]
  intro k hk hkx
  have h2 : succ_index curve k = some m := eq_of_beq hkx
  have hkt : k < t := List.mem_range.mp hk
  have h3 := hinj k (by omega) t ht m h2 hσ
  omega

theorem cmin_of_pred_none (curve : List Seg) (t x : ℕ) (h : pred_at curve t x = none) :
    cmin curve t x = x := by
  unfold cmin
  exact cminAux_of_none _ _ _ h

theorem cmin_step (curve : List Seg) (ρ : ℕ → ℕ) (t x k : ℕ) (ht : t ≤ curve.length)
    (hrank : ∀ i < curve.length, ∀ m, succ_index curve i = some m → ρ i < ρ m)
    (hbound : ∀ i < curve.length, ρ i < curve.length)
    (h : pred_at curve t x = some k) :
    cmin curve t x = cmin curve t k := by
  have hdec := pred_at_dec curve ρ t ht hrank
  have hk : k < curve.length := by
    rcases pred_at_some_elim curve t x k h with ⟨hkt, _⟩
    omega
  have hρk : ρ k < curve.length := hbound k hk
  have hne : curve.length ≠ 0 := by omega
  obtain ⟨g, hg⟩ := Nat.exists_eq_succ_of_ne_zero hne
  unfold cmin
  rw [hg, cminAux_of_some _ _ _ _ h]
  exact cminAux_congr_fuel _ ρ hdec g (g + 1) k (by omega) (by omega)

theorem cmin_lt (curve : List Seg) (t x : ℕ) (ht : t ≤ curve.length)
    (hx : x < curve.length) :
    cmin curve t x < curve.length := by
  unfold cmin
  exact cminAux_prop (pred_at curve t) (fun y => y < curve.length)
    (fun y k hy _ => by
      rcases pred_at_some_elim curve t y k hy with ⟨h1, _⟩
      omega)
    curve.length x hx

theorem cmin_rank_le (curve : List Seg) (ρ : ℕ → ℕ) (t x : ℕ) (ht : t ≤ curve.length)
    (hrank : ∀ i < curve.length, ∀ m, succ_index curve i = some m → ρ i < ρ m) :
    ρ (cmin curve t x) ≤ ρ x := by
  unfold cmin
  exact cminAux_prop (pred_at curve t) (fun y => ρ y ≤ ρ x)
    (fun y k hy hle => le_trans (le_of_lt (pred_at_dec curve ρ t ht hrank y k hy)) hle)
    curve.length x (le_refl _)

theorem cmin_pred_none (curve : List Seg) (ρ : ℕ → ℕ) (t x : ℕ) (ht : t ≤ curve.length)
    (hrank : ∀ i < curve.length, ∀ m, succ_index curve i = some m → ρ i < ρ m)
    (hρ : ρ x ≤ curve.length) :
    pred_at curve t (cmin curve t x) = none :=
  cminAux_pred_none (pred_at curve t) ρ (pred_at_dec curve ρ t ht hrank) curve.length x hρ

theorem cmin_idem (curve : List Seg) (ρ : ℕ → ℕ) (t x : ℕ) (ht : t ≤ curve.length)
    (hrank : ∀ i < curve.length, ∀ m, succ_index curve i = some m → ρ i < ρ m)
    (hρ : ρ x ≤ curve.length) :
    cmin curve t (cmin curve t x) = cmin curve t x :=
  cmin_of_pred_none curve t _ (cmin_pred_none curve ρ t x ht hrank hρ)

/-- The root returned by the compressing `find` ignores the compression: it
is the plain pointer chase in the incoming array. -/
theorem ufFindAux_fst : ∀ (f : ℕ) (p : List (Option ℕ)) (i : ℕ),
    (ufFindAux f p i).1 = cminAux (parent_pred p) f i := by
  intro f
  induction f with
  | zero => intro p i; rfl
  | succ g ih =>
    intro p i
    show (match p.getD i none with
      | none => (i, p)
      | some j =>
        let r := ufFindAux g p j
        (r.1, r.2.set i (some r.1))).1 = cminAux (parent_pred p) (g + 1) i
    cases hp : p.getD i none with
    | none =>
      rw [cminAux_of_none _ _ _ (show parent_pred p i = none from hp)]
    | some j =>
      rw [cminAux_of_some _ _ _ _ (show parent_pred p i = some j from hp)]
      exact ih p j

/-- Path compression preserves the stitching invariant. -/
theorem ufFindAux_inv (curve : List Seg) (ρ : ℕ → ℕ) (t : ℕ)
    (ht : t ≤ curve.length)
    (hrank : ∀ i < curve.length, ∀ m, succ_index curve i = some m → ρ i < ρ m)
    (hbound : ∀ i < curve.length, ρ i < curve.length) :
    ∀ (f : ℕ) (p : List (Option ℕ)) (i : ℕ), StitchInv curve ρ t p → ρ i ≤ f →
      StitchInv curve ρ t (ufFindAux f p i).2 := by
  intro f
  induction f with
  | zero => intro p i H _; exact H
  | succ g ih =>
    intro p i H hρi
    show StitchInv curve ρ t (match p.getD i none with
      | none => (i, p)
      | some j =>
        let r := ufFindAux g p j
        (r.1, r.2.set i (some r.1))).2
    cases hp : p.getD i none with
    | none => exact H
    | some j =>
      rcases H.2.1 i j hp with ⟨hj, hρj, hcij⟩
      have hρjg : ρ j ≤ g := by omega
      have Hr : StitchInv curve ρ t (ufFindAux g p j).2 := ih p j H hρjg
      have hval : (ufFindAux g p j).1 = cmin curve t j := by
        rw [ufFindAux_fst]
        exact cminAux_eq_of (parent_pred p) ρ (cmin curve t)
          (fun x k hx => (H.2.1 x k hx).2.1)
          (fun x hx => H.2.2 x hx)
          (fun x k hx => (H.2.1 x k hx).2.2)
          g j hρjg
      have hilen : i < (ufFindAux g p j).2.length := by
        rw [Hr.1, ← H.1]
        exact getD_some_lt p i j hp
      have hclt : cmin curve t j < curve.length := cmin_lt curve t j ht hj
      have hrle : ρ (cmin curve t j) ≤ ρ j := cmin_rank_le curve ρ t j ht hrank
      have hidem : cmin curve t (cmin curve t j) = cmin curve t j :=
        cmin_idem curve ρ t j ht hrank (le_of_lt (hbound j hj))
      refine ⟨?_, ?_, ?_⟩
      · rw [List.length_set]
        exact Hr.1
      · intro x j2 hx
        by_cases hxi : x = i
        · rw [hxi] at hx
          rw [getD_set_self _ _ _ hilen] at hx
          injection hx with hx2
          rw [hval] at hx2
          rw [hxi, ← hx2]
          exact ⟨hclt, by omega, hcij.trans hidem.symm⟩
        · rw [getD_set_ne _ _ _ _ (fun he => hxi he.symm)] at hx
          exact Hr.2.1 x j2 hx
      · intro x hx
        by_cases hxi : x = i
        · rw [hxi, getD_set_self _ _ _ hilen] at hx
          cases hx
        · rw [getD_set_ne _ _ _ _ (fun he => hxi he.symm)] at hx
          exact Hr.2.2 x hx

theorem ufFind_fst (curve : List Seg) (ρ : ℕ → ℕ) (t : ℕ)
    (_ht : t ≤ curve.length)
    (_hrank : ∀ i < curve.length, ∀ m, succ_index curve i = some m → ρ i < ρ m)
    (hbound : ∀ i < curve.length, ρ i < curve.length)
    (p : List (Option ℕ)) (i : ℕ)
    (H : StitchInv curve ρ t p) (hi : i < curve.length) :
    (ufFind p i).1 = cmin curve t i := by
  unfold ufFind
  rw [ufFindAux_fst, H.1]
  exact cminAux_eq_of (parent_pred p) ρ (cmin curve t)
    (fun x k hx => (H.2.1 x k hx).2.1)
    (fun x hx => H.2.2 x hx)
    (fun x k hx => (H.2.1 x k hx).2.2)
    curve.length i (le_of_lt (hbound i hi))

theorem ufFind_inv (curve : List Seg) (ρ : ℕ → ℕ) (t : ℕ)
    (ht : t ≤ curve.length)
    (hrank : ∀ i < curve.length, ∀ m, succ_index curve i = some m → ρ i < ρ m)
    (hbound : ∀ i < curve.length, ρ i < curve.length)
    (p : List (Option ℕ)) (i : ℕ)
    (H : StitchInv curve ρ t p) (hi : i < curve.length) :
    StitchInv curve ρ t (ufFind p i).2 := by
  unfold ufFind
  exact ufFindAux_inv curve ρ t ht hrank hbound p.length p i H
    (by rw [H.1]; exact le_of_lt (hbound i hi))

/-- One union step moves the chain head of everything previously headed at
the union target `m` to the head of the current segment `t`, and leaves all
other heads unchanged. -/
theorem cmin_succ_eq (curve : List Seg) (ρ : ℕ → ℕ) (t m : ℕ) (ht : t < curve.length)
    (hσ : succ_index curve t = some m)
    (hrank : ∀ i < curve.length, ∀ m2, succ_index curve i = some m2 → ρ i < ρ m2)
    (hbound : ∀ i < curve.length, ρ i < curve.length)
    (hinj : ∀ i < curve.length, ∀ j < curve.length, ∀ m2,
      succ_index curve i = some m2 → succ_index curve j = some m2 → i = j) :
    ∀ x, ρ x ≤ curve.length →
      cmin curve (t + 1) x =
        if cmin curve t x = m then cmin curve t t else cmin curve t x := by
  intro x hρx
  have hdec2 : ∀ y k, pred_at curve (t + 1) y = some k → ρ k < ρ y :=
    pred_at_dec curve ρ (t + 1) (by omega) hrank
  have hpm : pred_at curve (t + 1) m = some t := pred_at_succ_self curve t m ht hσ hinj
  have hptm : pred_at curve t m = none := pred_at_lt_none curve t m ht hσ hinj
  have hcm : cmin curve t m = m := cmin_of_pred_none curve t m hptm
  have hcρ : ρ (cmin curve t t) ≤ ρ t := cmin_rank_le curve ρ t t (by omega) hrank
  have hct_ne : cmin curve t t ≠ m := by
    intro he
    rw [he] at hcρ
    have h2 := hrank t ht m hσ
    omega
  unfold cmin
  refine cminAux_eq_of (pred_at curve (t + 1)) ρ
    (fun y => if cmin curve t y = m then cmin curve t t else cmin curve t y)
    hdec2 ?_ ?_ curve.length x hρx
  · intro y hy
    show (if cmin curve t y = m then cmin curve t t else cmin curve t y) = y
    have hym : y ≠ m := by
      intro he
      rw [he, hpm] at hy
      cases hy
    have hpy : pred_at curve t y = none := by
      rw [← pred_at_succ_of_ne curve t y m hσ hym]
      exact hy
    have hcy : cmin curve t y = y := cmin_of_pred_none curve t y hpy
    rw [hcy, if_neg hym]
  · intro y k hy
    show (if cmin curve t y = m then cmin curve t t else cmin curve t y) =
      (if cmin curve t k = m then cmin curve t t else cmin curve t k)
    by_cases hym : y = m
    · rw [hym, hpm] at hy
      injection hy with hy2
      rw [hym, ← hy2, hcm, if_pos rfl, if_neg hct_ne]
    · have hpy : pred_at curve t y = some k := by
        rw [← pred_at_succ_of_ne curve t y m hσ hym]
        exact hy
      rw [cmin_step curve ρ t y k (by omega) hrank hbound hpy]

/-- A union step of `_connected_segments` preserves the stitching invariant,
advancing its step counter. -/
theorem union_step_inv (curve : List Seg) (ρ : ℕ → ℕ) (t m : ℕ)
    (p : List (Option ℕ)) (ht : t < curve.length)
    (hσ : succ_index curve t = some m)
    (hrank : ∀ i < curve.length, ∀ m2, succ_index curve i = some m2 → ρ i < ρ m2)
    (hbound : ∀ i < curve.length, ρ i < curve.length)
    (hinj : ∀ i < curve.length, ∀ j < curve.length, ∀ m2,
      succ_index curve i = some m2 → succ_index curve j = some m2 → i = j)
    (H : StitchInv curve ρ t p) :
    StitchInv curve ρ (t + 1) (ufUnion p m t) := by
  have hm : m < curve.length := succ_index_lt curve t m hσ
  have hρm : ρ m < curve.length := hbound m hm
  have hρt : ρ t < curve.length := hbound t ht
  have hptm : pred_at curve t m = none := pred_at_lt_none curve t m ht hσ hinj
  have hcm : cmin curve t m = m := cmin_of_pred_none curve t m hptm
  have hfi1 : (ufFind p m).1 = cmin curve t m :=
    ufFind_fst curve ρ t (by omega) hrank hbound p m H hm
  have Hfi : StitchInv curve ρ t (ufFind p m).2 :=
    ufFind_inv curve ρ t (by omega) hrank hbound p m H hm
  have hfj1 : (ufFind (ufFind p m).2 t).1 = cmin curve t t :=
    ufFind_fst curve ρ t (by omega) hrank hbound (ufFind p m).2 t Hfi ht
  have Hfj : StitchInv curve ρ t (ufFind (ufFind p m).2 t).2 :=
    ufFind_inv curve ρ t (by omega) hrank hbound (ufFind p m).2 t Hfi ht
  have hcρ : ρ (cmin curve t t) ≤ ρ t := cmin_rank_le curve ρ t t (by omega) hrank
  have hcne : cmin curve t t ≠ m := by
    intro he
    rw [he] at hcρ
    have h2 := hrank t ht m hσ
    omega
  have T := cmin_succ_eq curve ρ t m ht hσ hrank hbound hinj
  show StitchInv curve ρ (t + 1)
    (if (ufFind p m).1 ≠ (ufFind (ufFind p m).2 t).1
     then (ufFind (ufFind p m).2 t).2.set (ufFind p m).1
       (some (ufFind (ufFind p m).2 t).1)
     else (ufFind (ufFind p m).2 t).2)
  rw [hfi1, hfj1, hcm, if_pos (fun he => hcne he.symm)]
  have hclt : cmin curve t t < curve.length := cmin_lt curve t t (by omega) ht
  have hidem : cmin curve t (cmin curve t t) = cmin curve t t :=
    cmin_idem curve ρ t t (by omega) hrank (le_of_lt hρt)
  have hmlen : m < (ufFind (ufFind p m).2 t).2.length := by
    rw [Hfj.1]
    exact hm
  have htm : ρ t < ρ m := hrank t ht m hσ
  refine ⟨?_, ?_, ?_⟩
  · rw [List.length_set]
    exact Hfj.1
  · intro x j hx
    by_cases hxm : x = m
    · rw [hxm, getD_set_self _ _ _ hmlen] at hx
      injection hx with hx2
      rw [hxm, ← hx2]
      refine ⟨hclt, by omega, ?_⟩
      rw [T m (le_of_lt hρm), T (cmin curve t t) (le_of_lt (lt_of_le_of_lt hcρ hρt)),
        hcm, if_pos rfl, hidem, if_neg hcne]
    · rw [getD_set_ne _ _ _ _ (fun he => hxm he.symm)] at hx
      rcases Hfj.2.1 x j hx with ⟨hj, hρj, hcx⟩
      have hxlen : x < curve.length := by
        have h2 := getD_some_lt _ x j hx
        rw [Hfj.1] at h2
        exact h2
      refine ⟨hj, hρj, ?_⟩
      rw [T x (le_of_lt (hbound x hxlen)), T j (le_of_lt (hbound j hj)), hcx]
  · intro x hx
    by_cases hxm : x = m
    · rw [hxm, getD_set_self _ _ _ hmlen] at hx
      cases hx
    · rw [getD_set_ne _ _ _ _ (fun he => hxm he.symm)] at hx
      have h3 := Hfj.2.2 x hx
      by_cases hxn : x < curve.length
      · rw [T x (le_of_lt (hbound x hxn)), h3, if_neg hxm]
      · exact cmin_of_pred_none curve (t + 1) x (pred_at_ge curve (t + 1) x (by omega))

theorem stitchInv_zero (curve : List Seg) (ρ : ℕ → ℕ) :
    StitchInv curve ρ 0 (List.replicate curve.length none) := by
  refine ⟨List.length_replicate _ _, ?_, ?_⟩
  · intro x j hx
    rw [getD_replicate] at hx
    cases hx
  · intro x _
    refine cmin_of_pred_none curve 0 x ?_
    unfold pred_at
    rfl

theorem stitchInv_succ_of_none (curve : List Seg) (ρ : ℕ → ℕ) (t : ℕ)
    (p : List (Option ℕ)) (h : succ_index curve t = none)
    (H : StitchInv curve ρ t p) : StitchInv curve ρ (t + 1) p := by
  have hc : cmin curve (t + 1) = cmin curve t := by
    funext x
    unfold cmin
    rw [show pred_at curve (t + 1) = pred_at curve t from
      funext (fun y => pred_at_succ_of_none curve t y h)]
  refine ⟨H.1, ?_, ?_⟩
  · intro x j hx
    rw [hc]
    exact H.2.1 x j hx
  · intro x hx
    rw [hc]
    exact H.2.2 x hx

/-- After the whole union pass the parent array realises the final chain
heads. -/
theorem union_loop_inv (curve : List Seg) (ρ : ℕ → ℕ)
    (hrank : ∀ i < curve.length, ∀ m, succ_index curve i = some m → ρ i < ρ m)
    (hbound : ∀ i < curve.length, ρ i < curve.length)
    (hinj : ∀ i < curve.length, ∀ j < curve.length, ∀ m,
      succ_index curve i = some m → succ_index curve j = some m → i = j) :
    StitchInv curve ρ curve.length (union_loop curve) := by
  unfold union_loop
  have main : ∀ t, t ≤ curve.length → StitchInv curve ρ t
      ((List.range t).foldl (fun p i =>
        match succ_index curve i with
        | some target => ufUnion p target i
        | none => p) (List.replicate curve.length none)) := by
    intro t
    induction t with
    | zero => intro _; exact stitchInv_zero curve ρ
    | succ g ih =>
      intro hg1
      rw [List.range_succ, List.foldl_append]
      have Hg := ih (by omega)
      simp only [List.foldl_cons, List.foldl_nil]
      cases hσ : succ_index curve g with
      | none => exact stitchInv_succ_of_none curve ρ g _ hσ Hg
      | some m =>
        exact union_step_inv curve ρ g m _ (by omega) hσ hrank hbound hinj Hg
  exact main curve.length (le_refl _)

/-- The grouping pass reads off exactly the chain heads `cmin` of each
index, in index order. -/
theorem sets_loop_fst (curve : List Seg) (ρ : ℕ → ℕ)
    (hrank : ∀ i < curve.length, ∀ m, succ_index curve i = some m → ρ i < ρ m)
    (hbound : ∀ i < curve.length, ρ i < curve.length)
    (hinj : ∀ i < curve.length, ∀ j < curve.length, ∀ m,
      succ_index curve i = some m → succ_index curve j = some m → i = j) :
    (sets_loop curve).1 = (List.range curve.length).foldl
      (fun s i => add_to_sets s (cmin curve curve.length i) i) [] := by
  unfold sets_loop
  have main : ∀ (l : List ℕ), (∀ i ∈ l, i < curve.length) →
      ∀ (s : List (ℕ × List ℕ)) (p : List (Option ℕ)),
      StitchInv curve ρ curve.length p →
      (l.foldl (fun st i =>
        let fr := ufFind st.2 i
        (add_to_sets st.1 fr.1 i, fr.2)) (s, p)).1
      = l.foldl (fun s i => add_to_sets s (cmin curve curve.length i) i) s := by
    intro l
    induction l with
    | nil => intro _ s p _; rfl
    | cons a l ih =>
      intro hl s p H
      simp only [List.foldl_cons]
      have ha : a < curve.length := hl a (List.mem_cons_self _ _)
      rw [show (ufFind p a).1 = cmin curve curve.length a from
        ufFind_fst curve ρ curve.length (le_refl _) hrank hbound p a H ha]
      exact ih (fun i hi => hl i (List.mem_cons_of_mem _ hi)) _ _
        (ufFind_inv curve ρ curve.length (le_refl _) hrank hbound p a H ha)
  exact main (List.range curve.length) (fun i hi => List.mem_range.mp hi) []
    (union_loop curve) (union_loop_inv curve ρ hrank hbound hinj)

theorem lookup_isSome_iff {σ τ : Type} [BEq σ] [LawfulBEq σ] (l : List (σ × τ)) (k : σ) :
    (l.lookup k).isSome = true ↔ k ∈ l.map Prod.fst := by
  induction l with
  | nil => simp [List.lookup]
  | cons kv t ih =>
    rw [lookup_cons_ite]
    by_cases h : k = kv.1
    · simp [h]
    · have hb : (k == kv.1) = false := beq_eq_false_iff_ne.mpr h
      rw [hb]
      simp [ih, h]

theorem add_to_sets_keys (s : List (ℕ × List ℕ)) (r i : ℕ) :
    (add_to_sets s r i).map Prod.fst =
      if r ∈ s.map Prod.fst then s.map Prod.fst else s.map Prod.fst ++ [r] := by
  unfold add_to_sets
  by_cases h : r ∈ s.map Prod.fst
  · rw [if_pos ((lookup_isSome_iff s r).mpr h), if_pos h, List.map_map]
    have h2 : (Prod.fst ∘ fun (e : ℕ × List ℕ) =>
        if e.1 = r then (e.1, e.2 ++ [i]) else e) = Prod.fst := by
      funext e
      by_cases he : e.1 = r <;> simp [he]
    rw [h2]
  · rw [if_neg (fun hc => h ((lookup_isSome_iff s r).mp hc)), if_neg h, List.map_append]
    rfl

theorem mem_add_to_sets_keys (s : List (ℕ × List ℕ)) (r i k : ℕ) :
    k ∈ (add_to_sets s r i).map Prod.fst ↔ k ∈ s.map Prod.fst ∨ k = r := by
  rw [add_to_sets_keys]
  by_cases h : r ∈ s.map Prod.fst
  · rw [if_pos h]
    constructor
    · exact Or.inl
    · rintro (hk | hk)
      · exact hk
      · rw [hk]
        exact h
  · rw [if_neg h]
    simp [List.mem_append]

theorem add_to_sets_keys_nodup (s : List (ℕ × List ℕ)) (r i : ℕ)
    (h : (s.map Prod.fst).Nodup) : ((add_to_sets s r i).map Prod.fst).Nodup := by
  rw [add_to_sets_keys]
  by_cases hm : r ∈ s.map Prod.fst
  · rw [if_pos hm]
    exact h
  · rw [if_neg hm]
    simp [List.nodup_append, h, hm]

theorem fold_add_keys_nodup (curve : List Seg) :
    ∀ (l : List ℕ) (s : List (ℕ × List ℕ)), (s.map Prod.fst).Nodup →
    ((l.foldl (fun s i => add_to_sets s (cmin curve curve.length i) i) s).map
      Prod.fst).Nodup := by
  intro l
  induction l with
  | nil => intro s h; exact h
  | cons a l ih =>
    intro s h
    simp only [List.foldl_cons]
    exact ih _ (add_to_sets_keys_nodup _ _ _ h)

theorem fold_add_keys_mem (curve : List Seg) :
    ∀ (l : List ℕ) (s : List (ℕ × List ℕ)) (k : ℕ),
    (k ∈ (l.foldl (fun s i => add_to_sets s (cmin curve curve.length i) i) s).map
      Prod.fst) ↔
      k ∈ s.map Prod.fst ∨ ∃ i ∈ l, cmin curve curve.length i = k := by
  intro l
  induction l with
  | nil =>
    intro s k
    simp
  | cons a l ih =>
    intro s k
    simp only [List.foldl_cons]
    rw [ih, mem_add_to_sets_keys]
    constructor
    · rintro ((h | h) | h)
      · exact Or.inl h
      · exact Or.inr ⟨a, List.mem_cons_self _ _, h.symm⟩
      · rcases h with ⟨i, hi, he⟩
        exact Or.inr ⟨i, List.mem_cons_of_mem _ hi, he⟩
    · rintro (h | ⟨i, hi, he⟩)
      · exact Or.inl (Or.inl h)
      · rcases List.mem_cons.mp hi with hia | hil
        · rw [hia] at he
          exact Or.inl (Or.inr he.symm)
        · exact Or.inr ⟨i, hil, he⟩

/-- The source walk realises the ideal successor chain: the `old_key == key`
guard never fires under acyclicity, and the fuel suffices because the rank
grows along the walk. -/
theorem walk_aux_chain (curve : List Seg) (ρ : ℕ → ℕ)
    (hrank : ∀ i < curve.length, ∀ m, succ_index curve i = some m → ρ i < ρ m)
    (hbound : ∀ i < curve.length, ρ i < curve.length) :
    ∀ (f x : ℕ), x < curve.length → curve.length ≤ ρ x + f →
      walk_aux curve f (create_key ((curve.getD x default).b3)) =
        some (chain_tail curve f x) := by
  intro f
  induction f with
  | zero =>
    intro x hx hf
    exact absurd (hbound x hx) (by omega)
  | succ g ih =>
    intro x hx hf
    unfold walk_aux chain_tail
    cases hσ : succ_index curve x with
    | none =>
      have hσ2 : (begin_hash curve).lookup (create_key ((curve.getD x default).b3)) =
          none := hσ
      rw [hσ2]
    | some s =>
      have hs : s < curve.length := succ_index_lt curve x s hσ
      have hσ2 : (begin_hash curve).lookup (create_key ((curve.getD x default).b3)) =
          some s := hσ
      have hne : create_key ((curve.getD x default).b3) ≠
          create_key ((curve.getD s default).b3) := by
        intro he
        have h2 : succ_index curve s = some s := by
          unfold succ_index
          rw [← he]
          exact hσ2
        exact absurd (hrank s hs s h2) (lt_irrefl _)
      rw [hσ2]
      show (if create_key ((curve.getD x default).b3) =
          create_key ((curve.getD s default).b3) then some [s]
        else Option.map (fun l => s :: l)
          (walk_aux curve g (create_key ((curve.getD s default).b3)))) =
        some (s :: chain_tail curve g s)
      rw [if_neg hne, ih s hs (by have := hrank x hx s hσ; omega)]
      rfl

theorem walk_from_chain (curve : List Seg) (ρ : ℕ → ℕ)
    (hrank : ∀ i < curve.length, ∀ m, succ_index curve i = some m → ρ i < ρ m)
    (hbound : ∀ i < curve.length, ρ i < curve.length)
    (r : ℕ) (hr : r < curve.length) :
    walk_from curve r = some (chain curve r) := by
  unfold walk_from chain
  rw [walk_aux_chain curve ρ hrank hbound curve.length r hr (by omega)]
  rfl

/-- With unique in-edges, the in-edge of `s` is found by the full
predecessor search. -/
theorem pred_at_full_of_succ (curve : List Seg) (x s : ℕ) (hx : x < curve.length)
    (hσ : succ_index curve x = some s)
    (hinj : ∀ i < curve.length, ∀ j < curve.length, ∀ m,
      succ_index curve i = some m → succ_index curve j = some m → i = j) :
    pred_at curve curve.length s = some x := by
  unfold pred_at
  have hsome : (List.find? (fun k => succ_index curve k == some s)
      (List.range curve.length)).isSome := by
    rw [List.find?_isSome]
    exact ⟨x, List.mem_range.mpr hx, by rw [hσ]; simp⟩
  rcases Option.isSome_iff_exists.mp hsome with ⟨y, hy⟩
  rw [hy]
  have h1 := List.find?_some hy
  simp only [beq_iff_eq] at h1
  have h2 : y < curve.length := List.mem_range.mp (List.mem_of_find?_eq_some hy)
  rw [hinj y h2 x hx s h1 hσ]

theorem mem_chain_tail (curve : List Seg) (ρ : ℕ → ℕ)
    (hrank : ∀ i < curve.length, ∀ m, succ_index curve i = some m → ρ i < ρ m)
    (hbound : ∀ i < curve.length, ρ i < curve.length)
    (hinj : ∀ i < curve.length, ∀ j < curve.length, ∀ m,
      succ_index curve i = some m → succ_index curve j = some m → i = j) :
    ∀ (f x j : ℕ), x < curve.length → j ∈ chain_tail curve f x →
      j < curve.length ∧ ρ x < ρ j ∧
        cmin curve curve.length j = cmin curve curve.length x := by
  intro f
  induction f with
  | zero =>
    intro x j _ hj
    cases hj
  | succ g ih =>
    intro x j hx hj
    unfold chain_tail at hj
    cases hσ : succ_index curve x with
    | none =>
      rw [hσ] at hj
      cases hj
    | some s =>
      rw [hσ] at hj
      have hs : s < curve.length := succ_index_lt curve x s hσ
      have hcsx : cmin curve curve.length s = cmin curve curve.length x := by
        have hp : pred_at curve curve.length s = some x :=
          pred_at_full_of_succ curve x s hx hσ hinj
        exact cmin_step curve ρ curve.length s x (le_refl _) hrank hbound hp
      rcases List.mem_cons.mp hj with hje | hjt
      · rw [hje]
        exact ⟨hs, hrank x hx s hσ, hcsx⟩
      · rcases ih s j hs hjt with ⟨h1, h2, h3⟩
        exact ⟨h1, lt_trans (hrank x hx s hσ) h2, h3.trans hcsx⟩

/-- A chain with enough fuel is closed under taking successors. -/
theorem chain_closure (curve : List Seg) (ρ : ℕ → ℕ)
    (hrank : ∀ i < curve.length, ∀ m, succ_index curve i = some m → ρ i < ρ m)
    (hbound : ∀ i < curve.length, ρ i < curve.length) :
    ∀ (f k x i : ℕ), k < curve.length → curve.length ≤ ρ k + f →
      x ∈ k :: chain_tail curve f k → succ_index curve x = some i →
      i ∈ k :: chain_tail curve f k := by
  intro f
  induction f with
  | zero =>
    intro k x i hk hf _ _
    exact absurd (hbound k hk) (by omega)
  | succ g ih =>
    intro k x i hk hf hx hσx
    unfold chain_tail at hx ⊢
    cases hσk : succ_index curve k with
    | none =>
      rw [hσk] at hx
      have hx2 : x ∈ ([k] : List ℕ) := hx
      rcases List.mem_cons.mp hx2 with he | he
      · rw [he] at hσx
        rw [hσx] at hσk
        cases hσk
      · cases he
    | some s =>
      rw [hσk] at hx
      have hx2 : x ∈ k :: s :: chain_tail curve g s := hx
      have hs : s < curve.length := succ_index_lt curve k s hσk
      rcases List.mem_cons.mp hx2 with he | htail
      · rw [he] at hσx
        have h2 := hσk.symm.trans hσx
        injection h2 with h3
        rw [← h3]
        exact List.mem_cons_of_mem _ (List.mem_cons_self _ _)
      · exact List.mem_cons_of_mem _
          (ih s x i hs (by have := hrank k hk s hσk; omega) htail hσx)

/-- Every segment index lies on the chain of its own chain head. -/
theorem mem_chain_cmin (curve : List Seg) (ρ : ℕ → ℕ)
    (hrank : ∀ i < curve.length, ∀ m, succ_index curve i = some m → ρ i < ρ m)
    (hbound : ∀ i < curve.length, ρ i < curve.length)
    (_hinj : ∀ i < curve.length, ∀ j < curve.length, ∀ m,
      succ_index curve i = some m → succ_index curve j = some m → i = j) :
    ∀ i, i < curve.length → i ∈ chain curve (cmin curve curve.length i) := by
  have main : ∀ r i, ρ i = r → i < curve.length →
      i ∈ chain curve (cmin curve curve.length i) := by
    intro r
    induction r using Nat.strong_induction_on with
    | _ r ih =>
      intro i hρi hi
      cases hp : pred_at curve curve.length i with
      | none =>
        rw [cmin_of_pred_none curve curve.length i hp]
        unfold chain
        exact List.mem_cons_self _ _
      | some x =>
        rcases pred_at_some_elim curve curve.length i x hp with ⟨hxn, hσx⟩
        have hx : x < curve.length := by omega
        have hρx : ρ x < ρ i := hrank x hx i hσx
        have hci : cmin curve curve.length i = cmin curve curve.length x :=
          cmin_step curve ρ curve.length i x (le_refl _) hrank hbound hp
        have hx_mem : x ∈ chain curve (cmin curve curve.length x) :=
          ih (ρ x) (by omega) x rfl hx
        rw [hci]
        have hc_lt : cmin curve curve.length x < curve.length :=
          cmin_lt curve curve.length x (le_refl _) hx
        unfold chain at hx_mem ⊢
        exact chain_closure curve ρ hrank hbound curve.length
          (cmin curve curve.length x) x i hc_lt (by omega) hx_mem hσx
  exact fun i hi => main (ρ i) i rfl hi

theorem chain_tail_pairwise (curve : List Seg) (ρ : ℕ → ℕ)
    (hrank : ∀ i < curve.length, ∀ m, succ_index curve i = some m → ρ i < ρ m)
    (hbound : ∀ i < curve.length, ρ i < curve.length)
    (hinj : ∀ i < curve.length, ∀ j < curve.length, ∀ m,
      succ_index curve i = some m → succ_index curve j = some m → i = j) :
    ∀ (f x : ℕ), x < curve.length →
      (x :: chain_tail curve f x).Pairwise (fun a b => ρ a < ρ b) := by
  intro f
  induction f with
  | zero =>
    intro x _
    show (x :: []).Pairwise (fun a b => ρ a < ρ b)
    simp
  | succ g ih =>
    intro x hx
    unfold chain_tail
    cases hσ : succ_index curve x with
    | none => simp
    | some s =>
      have hs : s < curve.length := succ_index_lt curve x s hσ
      refine List.Pairwise.cons ?_ (ih s hs)
      intro j hj
      rcases List.mem_cons.mp hj with he | ht
      · rw [he]
        exact hrank x hx s hσ
      · rcases mem_chain_tail curve ρ hrank hbound hinj g s j hs ht with ⟨_, h2, _⟩
        exact lt_trans (hrank x hx s hσ) h2

theorem chain_nodup (curve : List Seg) (ρ : ℕ → ℕ)
    (hrank : ∀ i < curve.length, ∀ m, succ_index curve i = some m → ρ i < ρ m)
    (hbound : ∀ i < curve.length, ρ i < curve.length)
    (hinj : ∀ i < curve.length, ∀ j < curve.length, ∀ m,
      succ_index curve i = some m → succ_index curve j = some m → i = j)
    (k : ℕ) (hk : k < curve.length) :
    (chain curve k).Nodup := by
  unfold chain
  exact (chain_tail_pairwise curve ρ hrank hbound hinj curve.length k hk).imp
    (fun h he => absurd (he ▸ h) (lt_irrefl _))

theorem mapM_eq_some {α β : Type} (f : α → Option β) (g : α → β) :
    ∀ (l : List α), (∀ e ∈ l, f e = some (g e)) → l.mapM f = some (l.map g) := by
  intro l
  induction l with
  | nil => intro _; rfl
  | cons a l ih =>
    intro h
    rw [List.mapM_cons, h a (List.mem_cons_self _ _),
      ih (fun e he => h e (List.mem_cons_of_mem _ he))]
    rfl

theorem map_sum_eq_one (f : ℕ → ℕ) :
    ∀ (K : List ℕ) (k0 : ℕ), K.Nodup → k0 ∈ K →
      (∀ k ∈ K, f k = if k = k0 then 1 else 0) → (K.map f).sum = 1 := by
  intro K
  induction K with
  | nil =>
    intro k0 _ h _
    cases h
  | cons a K ih =>
    intro k0 hnd hk0 hf
    rw [List.map_cons, List.sum_cons]
    by_cases ha : a = k0
    · rw [hf a (List.mem_cons_self _ _), if_pos ha]
      have hz : (K.map f).sum = 0 := by
        apply List.sum_eq_zero
        intro x hx
        rcases List.mem_map.mp hx with ⟨k, hk, he⟩
        rw [← he, hf k (List.mem_cons_of_mem _ hk),
          if_neg (fun hkk => (List.nodup_cons.mp hnd).1 (by rw [ha, ← hkk]; exact hk))]
      rw [hz]
    · rw [hf a (List.mem_cons_self _ _), if_neg ha]
      have hk02 : k0 ∈ K := by
        rcases List.mem_cons.mp hk0 with h | h
        · exact absurd h.symm ha
        · exact h
      rw [ih k0 (List.nodup_cons.mp hnd).2 hk02
        (fun k hk => hf k (List.mem_cons_of_mem _ hk))]

/-- C1 counterexample: the stitcher both duplicates and loses segments.
First input: one segment whose start and end quantise to the same key; the
walk appends the segment again before the `old_key == key` guard breaks, so
the single segment appears twice in its connected path.  Second input: two
segments (indices 0 and 1) share their end key, which is the start key of
segment 2 (a fan-in); the union-find merges all three, but the single walk
starts at the set key (index 1) and reaches only segments 1 and 2 — segment
0 appears in no output path. -/
theorem C1_cex_lost_and_duplicated :
    (connected_segments [⟨[0, 0], [0, 0], [0, 0], [0, 0]⟩] =
      some [[⟨[0, 0], [0, 0], [0, 0], [0, 0]⟩, ⟨[0, 0], [0, 0], [0, 0], [0, 0]⟩]]) ∧
    (connected_segments
        [⟨[0, 0], [], [], [2, 0]⟩, ⟨[1, 1], [], [], [2, 0]⟩, ⟨[2, 0], [], [], [3, 0]⟩] =
      some [[⟨[1, 1], [], [], [2, 0]⟩, ⟨[2, 0], [], [], [3, 0]⟩]]) :=
  ⟨by decide, by decide⟩

/-- C1 amended: when the successor relation induced by the quantised keys is
acyclic (witnessed by a rank `ρ` that strictly increases along successors
and stays below the segment count) and injective (no two segments share a
successor, i.e. no fan-in), the stitcher terminates and every segment index
appears in exactly one connected path, exactly once. -/
theorem C1_stitcher_amended (curve : List Seg) (ρ : ℕ → ℕ)
    (hrank : ∀ i < curve.length, ∀ m, succ_index curve i = some m → ρ i < ρ m)
    (hbound : ∀ i < curve.length, ρ i < curve.length)
    (hinj : ∀ i < curve.length, ∀ j < curve.length, ∀ m,
      succ_index curve i = some m → succ_index curve j = some m → i = j) :
    ∃ I : List (List ℕ),
      connected_segment_indices curve = some I ∧
      connected_segments curve =
        some (I.map (List.map (fun i => curve.getD i default))) ∧
      ∀ i < curve.length, (I.map (fun p => p.count i)).sum = 1 := by
  have hS := sets_loop_fst curve ρ hrank hbound hinj
  have hKnd : (((sets_loop curve).1).map Prod.fst).Nodup := by
    rw [hS]
    exact fold_add_keys_nodup curve (List.range curve.length) [] (by simp)
  have hKmem : ∀ k, k ∈ ((sets_loop curve).1).map Prod.fst ↔
      ∃ i, i < curve.length ∧ cmin curve curve.length i = k := by
    intro k
    rw [hS, fold_add_keys_mem]
    simp [List.mem_range]
  have hkey : ∀ e ∈ (sets_loop curve).1,
      e.1 < curve.length ∧ cmin curve curve.length e.1 = e.1 := by
    intro e he
    have hm : e.1 ∈ ((sets_loop curve).1).map Prod.fst :=
      List.mem_map_of_mem Prod.fst he
    rcases (hKmem e.1).mp hm with ⟨i, hi, he2⟩
    constructor
    · rw [← he2]
      exact cmin_lt curve curve.length i (le_refl _) hi
    · rw [← he2]
      exact cmin_idem curve ρ curve.length i (le_refl _) hrank (le_of_lt (hbound i hi))
  have hI : connected_segment_indices curve =
      some (((sets_loop curve).1).map (fun e => chain curve e.1)) := by
    unfold connected_segment_indices
    exact mapM_eq_some _ _ _
      (fun e he => walk_from_chain curve ρ hrank hbound e.1 (hkey e he).1)
  refine ⟨((sets_loop curve).1).map (fun e => chain curve e.1), hI, ?_, ?_⟩
  · unfold connected_segments
    rw [hI]
    rfl
  · intro i hi
    have hmm2 : ((((sets_loop curve).1).map (fun e => chain curve e.1)).map
        (fun p => p.count i)) =
        (((sets_loop curve).1).map Prod.fst).map
          (fun k => (chain curve k).count i) := by
      rw [List.map_map, List.map_map]
      rfl
    rw [hmm2]
    refine map_sum_eq_one (fun k => (chain curve k).count i) _
      (cmin curve curve.length i) hKnd ?_ ?_
    · exact (hKmem _).mpr ⟨i, hi, rfl⟩
    · intro k hk
      rcases (hKmem k).mp hk with ⟨i2, hi2, he2⟩
      have hkn : k < curve.length := by
        rw [← he2]
        exact cmin_lt curve curve.length i2 (le_refl _) hi2
      have hck : cmin curve curve.length k = k := by
        rw [← he2]
        exact cmin_idem curve ρ curve.length i2 (le_refl _) hrank
          (le_of_lt (hbound i2 hi2))
      by_cases hkk : k = cmin curve curve.length i
      · rw [if_pos hkk, hkk]
        exact List.count_eq_one_of_mem
          (chain_nodup curve ρ hrank hbound hinj _
            (cmin_lt curve curve.length i (le_refl _) hi))
          (mem_chain_cmin curve ρ hrank hbound hinj i hi)
      · rw [if_neg hkk]
        apply List.count_eq_zero_of_not_mem
        intro hmem
        unfold chain at hmem
        rcases List.mem_cons.mp hmem with he | ht
        · apply hkk
          rw [he]
          exact hck.symm
        · rcases mem_chain_tail curve ρ hrank hbound hinj curve.length k i hkn ht
            with ⟨_, _, h3⟩
          exact hkk (h3.trans hck).symm

/-- Witness for C1 amended: a single segment with distinct quantised start
and end keys, ranked by the identity. -/
theorem C1_stitcher_amended_witness :
    ∃ I : List (List ℕ),
      connected_segment_indices [(⟨[0, 0], [], [], [1, 0]⟩ : Seg)] = some I ∧
      connected_segments [(⟨[0, 0], [], [], [1, 0]⟩ : Seg)] =
        some (I.map (List.map
          (fun i => [(⟨[0, 0], [], [], [1, 0]⟩ : Seg)].getD i default))) ∧
      ∀ i < [(⟨[0, 0], [], [], [1, 0]⟩ : Seg)].length,
        (I.map (fun p => p.count i)).sum = 1 :=
  C1_stitcher_amended [⟨[0, 0], [], [], [1, 0]⟩] (fun i => i)
    (by
      intro i hi m hm
      have hi1 : i < 1 := hi
      have h0 : i = 0 := by omega
      rw [h0] at hm
      rw [show succ_index [(⟨[0, 0], [], [], [1, 0]⟩ : Seg)] 0 = none from by decide] at hm
      cases hm)
    (by decide)
    (by
      intro i hi j hj m h1 h2
      have hi1 : i < 1 := hi
      have hj1 : j < 1 := hj
      omega)

end FlatmapSvg
